import Mathlib

/-!
Verification of the Ndc.FormBuilder conditional rule engine.

Shallow embedding of:
- `condition-engine.ts` (`evaluateConditions`, `applyEffect`)
- `condition-dsl.ts` (`when`, `EffectBuilder`, `ElseEffectBuilder`, `invertWhen`)
- `condition-graph.ts` (`traceReads`)
- the form store (`setValue`, `setMeta`, `validateField` with async resolution)
- the condition bridge (`run`: baseline reset, meta patches, subtree cascade,
  value effects; `setMetaIfChanged`, `metaShallowEqual`, `walkSubtree`).

JavaScript conventions used in the model:
- a flat value map read is `String → Option α` where `none` is `undefined`
  (an absent key and a key stored as `undefined` read identically);
- records whose key-insertion order is observable (`Object.keys`) are modelled
  as insertion-ordered association lists (`Rec`);
- `Array.prototype.sort` with comparator `(a, b) => pb - pa` is (per ES2019)
  a stable descending sort by priority, modelled by a stable insertion sort.
-/

namespace NdcSpec

/-- Read view of the flat runtime value map (`FieldValueMap`): `none` is
JavaScript `undefined`. -/
abbrev Values (α : Type) := String → Option α

/-- Stored per-field meta.  The store only ever keeps fully populated meta
records (`register` and `setMeta` both merge onto the all-`true` default). -/
structure FieldMeta where
  visible : Bool
  enabled : Bool
  validate : Bool
deriving DecidableEq, Repr

/-- Partial meta object: a JS object whose `visible`/`enabled`/`validate`
properties may each be present (`some`) or absent (`none`).  Used for the
evaluator's meta patches and for `metaShallowEqual`'s optional-chaining view. -/
structure PMeta where
  visible : Option Bool
  enabled : Option Bool
  validate : Option Bool
deriving DecidableEq, Repr

/-- Empty patch `{}` (all properties absent). -/
def PMeta.empty : PMeta := ⟨none, none, none⟩

/-- Spread-merge `{...prev, ...patch}` of a full meta with a partial patch. -/
def mergeMeta (prev : FieldMeta) (p : PMeta) : FieldMeta :=
  ⟨p.visible.getD prev.visible, p.enabled.getD prev.enabled, p.validate.getD prev.validate⟩

/-- Optional-chaining view `a?.visible` / `a?.enabled` / `a?.validate` of a
possibly-`undefined` stored meta. -/
def toPMeta : Option FieldMeta → PMeta
  | none => PMeta.empty
  | some m => ⟨some m.visible, some m.enabled, some m.validate⟩

/-- Spread-merge `{...base, ...patch}` of two partial meta objects: a property
present in `patch` wins, otherwise the one of `base` is kept. -/
def overrideP (base p : PMeta) : PMeta :=
  ⟨p.visible.orElse fun _ => base.visible,
   p.enabled.orElse fun _ => base.enabled,
   p.validate.orElse fun _ => base.validate⟩

/-- Source `metaShallowEqual` (ndc-form.v1.tsx): compares exactly
`a?.visible === b?.visible && a?.enabled === b?.enabled && a?.validate === b?.validate`,
with `undefined === undefined` true and `undefined === bool` false. -/
def metaShallowEqual (a b : PMeta) : Bool :=
  a.visible == b.visible && a.enabled == b.enabled && a.validate == b.validate

/-! ## Effects and rules (condition-types.ts) -/

/-- Payload of a `set` effect: a literal value (possibly `undefined`) or a
value-computing function of the full value map. -/
inductive SetVal (α : Type) where
  | lit (v : Option α)
  | fn (g : Values α → Option α)

/-- Runtime `ConditionEffect` (tags `show`, `hide`, `enable`, `disable`,
`set`, `clear`; each names a target field path). -/
inductive Effect (α : Type) where
  | showE (field : String)
  | hideE (field : String)
  | enableE (field : String)
  | disableE (field : String)
  | setE (field : String) (value : SetVal α)
  | clearE (field : String)

/-- Target field of an effect. -/
def Effect.target : Effect α → String
  | .showE f => f
  | .hideE f => f
  | .enableE f => f
  | .disableE f => f
  | .setE f _ => f
  | .clearE f => f

/-- Runtime `ConditionRule`: predicate, ordered effects, optional priority. -/
structure ConditionRule (α : Type) where
  when : Values α → Bool
  effects : List (Effect α)
  priority : Option Int

/-! ## Insertion-ordered records

JS records whose key order is observable are modelled as association lists:
first assignment appends the key, later assignments update in place. -/

/-- Insertion-ordered record. -/
abbrev Rec (β : Type) := List (String × β)

/-- Record assignment `r[k] = f(r[k])`: updates in place if the key exists,
appends otherwise. -/
def recUpdate (r : Rec β) (k : String) (f : Option β → β) : Rec β :=
  match r with
  | [] => [(k, f none)]
  | (k₁, v) :: rest => if k₁ = k then (k₁, f (some v)) :: rest else (k₁, v) :: recUpdate rest k f

/-- Record read `r[k]` (first, and with unique keys only, entry). -/
def recFind? (r : Rec β) (k : String) : Option β :=
  match r with
  | [] => none
  | (k₁, v) :: rest => if k₁ = k then some v else recFind? rest k

/-- `Object.keys` of a record. -/
def recKeys (r : Rec β) : List String := r.map Prod.fst

/-! ## Condition evaluator (condition-engine.ts) -/

/-- Output of `evaluateConditions`: the desired-value patch (`nextValues`) and
the per-field meta patch (`meta`), both insertion-ordered records. -/
structure EvalOut (α : Type) where
  desiredValues : Rec (Option α)
  meta : Rec PMeta

/-- Value of a `set` effect: a function payload is invoked with the value map
passed in, a literal is used as is. -/
def evalSetVal (v : SetVal α) (values : Values α) : Option α :=
  match v with
  | .lit x => x
  | .fn g => g values

/-- Source `applyEffect`: `show`/`hide` write `meta[field].visible`,
`enable`/`disable` write `meta[field].enabled` (each spreading the existing
entry), `set` records the computed value and `clear` records `undefined` into
`nextValues`. -/
def applyEffect (values : Values α) (st : EvalOut α) (e : Effect α) : EvalOut α :=
  match e with
  | .showE f =>
      { st with meta := recUpdate st.meta f fun old => { old.getD PMeta.empty with visible := some true } }
  | .hideE f =>
      { st with meta := recUpdate st.meta f fun old => { old.getD PMeta.empty with visible := some false } }
  | .enableE f =>
      { st with meta := recUpdate st.meta f fun old => { old.getD PMeta.empty with enabled := some true } }
  | .disableE f =>
      { st with meta := recUpdate st.meta f fun old => { old.getD PMeta.empty with enabled := some false } }
  | .setE f v =>
      { st with desiredValues := recUpdate st.desiredValues f fun _ => evalSetVal v values }
  | .clearE f =>
      { st with desiredValues := recUpdate st.desiredValues f fun _ => none }

/-- Effective priority `rule.priority ?? 0`. -/
def rulePrio (r : ConditionRule α) : Int := r.priority.getD 0

/-- Stable insertion of a rule into a descending-priority list: the rule goes
before the first element whose priority is not strictly greater. -/
def insertRule (r : ConditionRule α) : List (ConditionRule α) → List (ConditionRule α)
  | [] => [r]
  | x :: xs => if rulePrio r < rulePrio x then x :: insertRule r xs else r :: x :: xs

/-- Model of `[...rules].sort((a, b) => (b.priority ?? 0) - (a.priority ?? 0))`:
the stable descending sort by effective priority. -/
def sortRules (rules : List (ConditionRule α)) : List (ConditionRule α) :=
  rules.foldr insertRule []

/-- Source `evaluateConditions`: sort by priority descending (stable), then for
each rule whose predicate holds apply its effects in declared order, with later
writes overwriting earlier ones. -/
def evaluateConditions (values : Values α) (rules : List (ConditionRule α)) : EvalOut α :=
  (sortRules rules).foldl
    (fun st rule => if rule.when values then rule.effects.foldl (applyEffect values) st else st)
    ⟨[], []⟩

/-! ## Instrumented evaluator

Identical to `evaluateConditions` except that it also logs, in order, every
value-map argument passed to a `set` effect's value function.  Used to state
that set functions always observe the original input map. -/

/-- Output of the instrumented evaluator: the regular result plus the log of
arguments handed to `set` value functions. -/
structure EvalOutL (α : Type) where
  out : EvalOut α
  args : List (Values α)

/-- Instrumented `applyEffect`: same computation, logging the argument of each
invoked `set` value function. -/
def applyEffectLog (values : Values α) (st : EvalOutL α) (e : Effect α) : EvalOutL α :=
  match e with
  | .setE _ (.fn _) => ⟨applyEffect values st.out e, st.args ++ [values]⟩
  | _ => ⟨applyEffect values st.out e, st.args⟩

/-- Instrumented `evaluateConditions`. -/
def evaluateConditionsLog (values : Values α) (rules : List (ConditionRule α)) : EvalOutL α :=
  (sortRules rules).foldl
    (fun st rule => if rule.when values then rule.effects.foldl (applyEffectLog values) st else st)
    ⟨⟨[], []⟩, []⟩

/-! ## Condition DSL (condition-dsl.ts)

`EffectBuilder` never mutates: every method constructs a fresh object.
`ElseEffectBuilder`'s effect appenders push onto `this.elseEffects` and return
`this`.  To make the mutation observable the builders live in an explicit heap
of objects addressed by allocation index; a TS `return this` is modelled by
returning the receiver's address over an updated heap, while `new ...` is
modelled by allocating a fresh address. -/

/-- Source `invertWhen`: pointwise boolean negation of a predicate. -/
def invertWhen (fn : Values α → Bool) : Values α → Bool := fun values => !(fn values)

/-- Fields of an `EffectBuilder` object (`whenFn`, accumulated `effects`,
optional `priority`; the selector resolver carries no state and is dropped). -/
structure EffState (α : Type) where
  whenFn : Values α → Bool
  effects : List (Effect α)
  priority : Option Int

/-- Fields of an `ElseEffectBuilder` object. -/
structure ElseState (α : Type) where
  whenFn : Values α → Bool
  thenEffects : List (Effect α)
  elseEffects : List (Effect α)
  priority : Option Int

/-- Source `EffectBuilder.toRules`: one rule from the accumulated state. -/
def EffState.toRules (b : EffState α) : List (ConditionRule α) :=
  [⟨b.whenFn, b.effects, b.priority⟩]

/-- Source `ElseEffectBuilder.toRules`: the original predicate with the then
branch's effects, and `invertWhen` of the predicate with the else branch's
effects; both with the same priority. -/
def ElseState.toRules (b : ElseState α) : List (ConditionRule α) :=
  [⟨b.whenFn, b.thenEffects, b.priority⟩,
   ⟨invertWhen b.whenFn, b.elseEffects, b.priority⟩]

/-- A builder object on the heap. -/
inductive BuilderObj (α : Type) where
  | eff (st : EffState α)
  | els (st : ElseState α)

/-- Heap of builder objects; a reference is an allocation index. -/
abbrev DslHeap (α : Type) := List (BuilderObj α)

/-- Object reference. -/
abbrev BRef := Nat

/-- Allocate a fresh object (`new ...`), returning its reference. -/
def allocObj (h : DslHeap α) (o : BuilderObj α) : DslHeap α × BRef :=
  (h ++ [o], h.length)

/-- Dereference. -/
def readObj (h : DslHeap α) (r : BRef) : Option (BuilderObj α) := h[r]?

/-- Overwrite the object at a reference (in-place mutation). -/
def writeObj (h : DslHeap α) (r : BRef) (o : BuilderObj α) : DslHeap α := h.set r o

/-- Source `when(predicate)`: allocates `new EffectBuilder(whenFn, [], undefined)`
(the `Boolean(...)` wrapper is the identity on the boolean-valued model
predicates). -/
def whenB (h : DslHeap α) (p : Values α → Bool) : DslHeap α × BRef :=
  allocObj h (.eff ⟨p, [], none⟩)

/-- Shared shape of every `EffectBuilder` effect appender
(`show`/`hide`/`enable`/`disable`/`set`/`setValue`/`clear`): construct a NEW
builder whose effect list is `[...this.effects, e]`, leaving the receiver
untouched.  On a non-`EffectBuilder` reference (untypable in TS) it is a no-op. -/
def effAppend (h : DslHeap α) (r : BRef) (e : Effect α) : DslHeap α × BRef :=
  match readObj h r with
  | some (.eff st) => allocObj h (.eff { st with effects := st.effects ++ [e] })
  | _ => (h, r)

/-- Source `EffectBuilder.show`. -/
def EffectBuilder.show (h : DslHeap α) (r : BRef) (f : String) : DslHeap α × BRef :=
  effAppend h r (.showE f)

/-- Source `EffectBuilder.hide`. -/
def EffectBuilder.hide (h : DslHeap α) (r : BRef) (f : String) : DslHeap α × BRef :=
  effAppend h r (.hideE f)

/-- Source `EffectBuilder.enable`. -/
def EffectBuilder.enable (h : DslHeap α) (r : BRef) (f : String) : DslHeap α × BRef :=
  effAppend h r (.enableE f)

/-- Source `EffectBuilder.disable`. -/
def EffectBuilder.disable (h : DslHeap α) (r : BRef) (f : String) : DslHeap α × BRef :=
  effAppend h r (.disableE f)

/-- Source `EffectBuilder.set` (and `setValue`, whose function wrapper is an
eta-expansion of the given value function). -/
def EffectBuilder.set (h : DslHeap α) (r : BRef) (f : String) (v : SetVal α) : DslHeap α × BRef :=
  effAppend h r (.setE f v)

/-- Source `EffectBuilder.clear`. -/
def EffectBuilder.clear (h : DslHeap α) (r : BRef) (f : String) : DslHeap α × BRef :=
  effAppend h r (.clearE f)

/-- Source `EffectBuilder.withPriority`: a new builder with the given priority. -/
def EffectBuilder.withPriority (h : DslHeap α) (r : BRef) (p : Int) : DslHeap α × BRef :=
  match readObj h r with
  | some (.eff st) => allocObj h (.eff { st with priority := some p })
  | _ => (h, r)

/-- Source `EffectBuilder.else`: allocates
`new ElseEffectBuilder(this.whenFn, this.effects, this.priority)`, whose
`elseEffects` field is initialised to `[]`. -/
def EffectBuilder.elseB (h : DslHeap α) (r : BRef) : DslHeap α × BRef :=
  match readObj h r with
  | some (.eff st) => allocObj h (.els ⟨st.whenFn, st.effects, [], st.priority⟩)
  | _ => (h, r)

/-- Shared shape of every `ElseEffectBuilder` effect appender: pushes onto
`this.elseEffects` in place and returns `this` (the same reference). -/
def elsePush (h : DslHeap α) (r : BRef) (e : Effect α) : DslHeap α × BRef :=
  match readObj h r with
  | some (.els st) => (writeObj h r (.els { st with elseEffects := st.elseEffects ++ [e] }), r)
  | _ => (h, r)

/-- Source `ElseEffectBuilder.show`. -/
def ElseEffectBuilder.show (h : DslHeap α) (r : BRef) (f : String) : DslHeap α × BRef :=
  elsePush h r (.showE f)

/-- Source `ElseEffectBuilder.hide`. -/
def ElseEffectBuilder.hide (h : DslHeap α) (r : BRef) (f : String) : DslHeap α × BRef :=
  elsePush h r (.hideE f)

/-- Source `ElseEffectBuilder.enable`. -/
def ElseEffectBuilder.enable (h : DslHeap α) (r : BRef) (f : String) : DslHeap α × BRef :=
  elsePush h r (.enableE f)

/-- Source `ElseEffectBuilder.disable`. -/
def ElseEffectBuilder.disable (h : DslHeap α) (r : BRef) (f : String) : DslHeap α × BRef :=
  elsePush h r (.disableE f)

/-- Source `ElseEffectBuilder.set` (and `setValue`). -/
def ElseEffectBuilder.set (h : DslHeap α) (r : BRef) (f : String) (v : SetVal α) : DslHeap α × BRef :=
  elsePush h r (.setE f v)

/-- Source `ElseEffectBuilder.clear`. -/
def ElseEffectBuilder.clear (h : DslHeap α) (r : BRef) (f : String) : DslHeap α × BRef :=
  elsePush h r (.clearE f)

/-- Materialise rules from the builder a reference points at. -/
def toRulesB (h : DslHeap α) (r : BRef) : List (ConditionRule α) :=
  match readObj h r with
  | some (.eff st) => st.toRules
  | some (.els st) => st.toRules
  | none => []

/-! ## Dependency tracer (condition-graph.ts)

Predicates whose reads are observable are modelled as resumptions: a
`PredProg` either returns, throws, or reads one key and continues with the
value obtained.  Running a predicate against the recording proxy of
`traceReads` adds each read key to the set as it happens; the surrounding
`try`/`catch` swallows an exception, keeping the keys read before the throw. -/

/-- A predicate as an observable read program. -/
inductive PredProg (α : Type) where
  | ret (b : Bool)
  | throwEx
  | readK (k : String) (cont : Option α → PredProg α)

/-- Reference semantics: the result of running the predicate against `values`
(`none` means it throws). -/
def predResult (values : Values α) : PredProg α → Option Bool
  | .ret b => some b
  | .throwEx => none
  | .readK k cont => predResult values (cont (values k))

/-- Reference semantics: the keys the predicate reads from `values`, in order,
up to its return or throw. -/
def predReads (values : Values α) : PredProg α → List String
  | .ret _ => []
  | .throwEx => []
  | .readK k cont => k :: predReads values (cont (values k))

/-- `Set.add`: append a key unless already present (JS `Set` keeps insertion
order and drops duplicates). -/
def addUniq (acc : List String) (k : String) : List String :=
  if k ∈ acc then acc else acc ++ [k]

/-- Insertion-ordered deduplication (building a JS `Set` from a list). -/
def dedupFirst (l : List String) : List String := l.foldl addUniq []

/-- One run of the predicate against the recording proxy: every string key is
added to the read set as it is read; a throw aborts the run with the set
collected so far (the `try`/`catch` of `traceReads` swallows it). -/
def traceRun (values : Values α) (acc : List String) : PredProg α → List String
  | .ret _ => acc
  | .throwEx => acc
  | .readK k cont => traceRun values (addUniq acc k) (cont (values k))

/-- Source `traceReads`: run the predicate once against the recording proxy of
`values` and return the recorded key set; exceptions are swallowed. -/
def traceReads (fn : PredProg α) (values : Values α) : List String :=
  traceRun values [] fn

/-! ## Form store (ndc-form.tsx)

The store is modelled by its engine-visible state: the flat value record, the
error map, the meta map, and the validation bookkeeping (`pending`,
`lastValidatedValue`).  Subscriber notifications are returned as an event
list.  `lastValidatedValue` and `errors` keep JS read semantics: a deleted or
absent entry reads as `undefined`. -/

/-- A subscriber notification. -/
inductive Notif where
  | value (f : String)
  | error (f : String)
  | meta (f : String)
deriving DecidableEq, Repr

/-- An entry of the error map as JS sees it: absent (`undefined`), `null`, or
a message string. -/
inductive ErrVal where
  | undef
  | nullv
  | msg (s : String)
deriving DecidableEq, Repr

/-- JS truthiness of an error entry (`if (store.errors[key])`): only a
non-empty message string is truthy. -/
def ErrVal.isTruthy : ErrVal → Bool
  | .msg s => s ≠ ""
  | _ => false

/-- Value of `store.errors[key] ?? null` as the `string | null` return type. -/
def ErrVal.toRet : ErrVal → Option String
  | .msg s => some s
  | _ => none

/-- Strict equality `store.errors[key] === next` against a `string | null`
value (`undefined === null` is false). -/
def jsEqErrOpt (e : ErrVal) (n : Option String) : Bool :=
  match e, n with
  | .nullv, none => true
  | .msg s, some t => s == t
  | _, _ => false

/-- Assignment `store.errors[key] = next` of a `string | null` value. -/
def ErrVal.ofOpt : Option String → ErrVal
  | none => .nullv
  | some s => .msg s

/-- JS truthiness of a `string | null` validator message (`if (msg)`). -/
def strTruthy : Option String → Bool
  | some s => s ≠ ""
  | none => false

/-- Result of one validator call: a synchronous `string | null`, or a promise
carrying its eventual resolution. -/
inductive VResult where
  | sync (m : Option String)
  | async (m : Option String)

/-- A field validator (receives the field value and the full value map). -/
abbrev ValidatorR (α : Type) := Option α → Values α → VResult

/-- The in-flight data captured when an async validator is dispatched: the
field, the value captured at dispatch time, and the promise's eventual
message. -/
structure PendingRes (α : Type) where
  key : String
  valueAtStart : Option α
  msg : Option String

/-- Engine-visible store state. -/
structure Store (α : Type) where
  values : Rec (Option α)
  errors : String → ErrVal
  metaMap : String → Option FieldMeta
  pending : String → Bool
  lastValidated : String → Option α
  validators : String → List (ValidatorR α)

/-- Pointwise update of a function-backed map. -/
def fupd (f : String → β) (k : String) (v : β) : String → β :=
  fun x => if x = k then v else f x

/-- Read view `values[k]` of the flat value record (absent reads `undefined`). -/
def readView (r : Rec (Option α)) : Values α :=
  fun k => (recFind? r k).getD none

/-- Source `setValue`: write the value, delete the last-validated record,
clear a truthy error (with notification), then notify value subscribers. -/
def setValue (s : Store α) (key : String) (v : Option α) : Store α × List Notif :=
  let errStep : Store α × List Notif :=
    if (s.errors key).isTruthy then
      ({ s with values := recUpdate s.values key fun _ => v,
                lastValidated := fupd s.lastValidated key none,
                errors := fupd s.errors key .nullv }, [Notif.error key])
    else
      ({ s with values := recUpdate s.values key fun _ => v,
                lastValidated := fupd s.lastValidated key none }, [])
  (errStep.1, errStep.2 ++ [Notif.value key])

/-- Source `metaApi.setMeta`: merge the patch onto the (defaulted) previous
meta, store the merged record, clear validation bookkeeping when the field
became validatable or is now hidden/non-validatable (clearing a non-null error
with notification), and notify meta subscribers only when one of the three
props changed. -/
def setMeta (s : Store α) (name : String) (patch : PMeta) : Store α × List Notif :=
  let prev := (s.metaMap name).getD ⟨true, true, true⟩
  let merged := mergeMeta prev patch
  let s1 := { s with metaMap := fupd s.metaMap name (some merged) }
  let s2 :=
    if (!prev.visible || !prev.validate) && merged.visible && merged.validate then
      { s1 with lastValidated := fupd s1.lastValidated name none }
    else s1
  let hideStep : Store α × List Notif :=
    if !merged.visible || !merged.validate then
      let s3a := { s2 with pending := fupd s2.pending name false,
                           lastValidated := fupd s2.lastValidated name none }
      if s3a.errors name ≠ ErrVal.nullv then
        ({ s3a with errors := fupd s3a.errors name .nullv }, [Notif.error name])
      else (s3a, [])
    else (s2, [])
  let metaNs :=
    if prev.visible ≠ merged.visible ∨ prev.enabled ≠ merged.enabled ∨
        prev.validate ≠ merged.validate then
      [Notif.meta name]
    else []
  (hideStep.1, hideStep.2 ++ metaNs)

/-- Helper of `splitDot`: split a character list at dots, `acc` holding the
reversed current segment. -/
def splitDotAux : List Char → List Char → List (List Char)
  | [], acc => [acc.reverse]
  | c :: rest, acc =>
      if c = '.' then acc.reverse :: splitDotAux rest [] else splitDotAux rest (c :: acc)

/-- Model of JS `path.split(".")` (also `String.splitOn "."`), implemented by
structural recursion on the character list so that it computes by kernel
reduction: `""` gives `[""]`, `"a.b"` gives `["a", "b"]`, `"a."` gives
`["a", ""]`. -/
def splitDot (s : String) : List String :=
  (splitDotAux s.data []).map List.asString

/-- Progressive dotted prefixes of a path (`"a.b.c"` gives
`["a", "a.b", "a.b.c"]`), as accumulated by `isEffectivelyValidatable`. -/
def prefixList (path : String) : List String :=
  ((splitDot path).foldl
    (fun (acc : List String × String) part =>
      let cur := if acc.2 = "" then part else acc.2 ++ "." ++ part
      (acc.1 ++ [cur], cur))
    ([], "")).1

/-- Source `isEffectivelyValidatable`: a path is validatable unless some
dotted prefix of it has meta with `visible` or `validate` false. -/
def isEffectivelyValidatable (path : String) (meta : String → Option FieldMeta) : Bool :=
  (prefixList path).all fun c =>
    match meta c with
    | some m => m.visible && m.validate
    | none => true

/-- Validator loop of `validateField`: a truthy synchronous message is stored
(if different) and returned; the first promise-returning validator adds the
field to `pending`, notifies error subscribers, captures the dispatch-time
value, and short-circuits with `null`; when the loop finishes, a non-null
error is cleared. -/
def runValidators (key : String) (value : Option α) (vals : Values α) (s : Store α) :
    List (ValidatorR α) → Store α × Option String × List Notif × Option (PendingRes α)
  | [] =>
      if s.errors key ≠ ErrVal.nullv then
        ({ s with errors := fupd s.errors key .nullv }, none, [Notif.error key], none)
      else (s, none, [], none)
  | r :: rest =>
      match r value vals with
      | .async m =>
          ({ s with pending := fupd s.pending key true }, none, [Notif.error key],
            some ⟨key, value, m⟩)
      | .sync m =>
          if strTruthy m then
            if jsEqErrOpt (s.errors key) m then (s, m, [], none)
            else ({ s with errors := fupd s.errors key (ErrVal.ofOpt m) }, m, [Notif.error key], none)
          else runValidators key value vals s rest

/-- Source `validateField`: clears state and bails for non-validatable fields,
returns the current error while a validation is pending, skips when there are
no validators or when the value is reference-equal to the last validated one,
otherwise records the value as last-validated and runs the validator loop. -/
def validateField [DecidableEq α] (s : Store α) (key : String) :
    Store α × Option String × List Notif × Option (PendingRes α) :=
  if ¬ isEffectivelyValidatable key s.metaMap then
    if s.errors key ≠ ErrVal.nullv then
      ({ s with pending := fupd s.pending key false,
                lastValidated := fupd s.lastValidated key none,
                errors := fupd s.errors key .nullv }, none, [Notif.error key], none)
    else
      ({ s with pending := fupd s.pending key false,
                lastValidated := fupd s.lastValidated key none }, none, [], none)
  else if s.pending key then
    (s, (s.errors key).toRet, [], none)
  else if (s.validators key).isEmpty then
    if s.errors key ≠ ErrVal.nullv then
      ({ s with errors := fupd s.errors key .nullv }, none, [Notif.error key], none)
    else (s, none, [], none)
  else if s.lastValidated key = readView s.values key then
    (s, (s.errors key).toRet, [], none)
  else
    runValidators key (readView s.values key) (readView s.values)
      { s with lastValidated := fupd s.lastValidated key (readView s.values key) }
      (s.validators key)

/-- Resolution callback of an in-flight async validator: a no-op (beyond
clearing `pending`) when the field is no longer validatable or when the
last-validated record is no longer reference-equal to the dispatch-time value;
otherwise stores the resolved message (if different) and notifies. -/
def resolvePending [DecidableEq α] (s : Store α) (p : PendingRes α) : Store α × List Notif :=
  if ¬ isEffectivelyValidatable p.key s.metaMap then
    ({ s with pending := fupd s.pending p.key false }, [])
  else if s.lastValidated p.key ≠ p.valueAtStart then
    ({ s with pending := fupd s.pending p.key false }, [])
  else
    let s1 := { s with pending := fupd s.pending p.key false }
    if jsEqErrOpt (s1.errors p.key) p.msg then (s1, [])
    else ({ s1 with errors := fupd s1.errors p.key (ErrVal.ofOpt p.msg) }, [Notif.error p.key])

/-! ## Condition bridge (condition-bridge.tsx) -/

/-- Guard value of `setMetaIfChanged`:
`{...(prev ?? {visible: true, enabled: true}), ...patch}` (note: this guard
default has no `validate` property, unlike the store's own default). -/
def bridgeMerged (prev : Option FieldMeta) (patch : PMeta) : PMeta :=
  overrideP
    (match prev with
     | some m => toPMeta (some m)
     | none => ⟨some true, some true, none⟩)
    patch

/-- Source `setMetaIfChanged`: skip the store write entirely (no mutation, no
notification) when the merged meta is shallow-equal to the previous one,
otherwise delegate the PATCH (not the merged value) to the store's `setMeta`. -/
def setMetaIfChanged (s : Store α) (name : String) (patch : PMeta) : Store α × List Notif :=
  if metaShallowEqual (toPMeta (s.metaMap name)) (bridgeMerged (s.metaMap name) patch) then
    (s, [])
  else setMeta s name patch

/-- Fold `setMetaIfChanged` over a list of (field, patch) writes, accumulating
notifications. -/
def smicFold (l : List (String × PMeta)) (sn : Store α × List Notif) : Store α × List Notif :=
  l.foldl
    (fun acc kp =>
      let r := setMetaIfChanged acc.1 kp.1 kp.2
      (r.1, acc.2 ++ r.2))
    sn

/-- Source precomputation of `showControlledFields`: the set (insertion order,
deduplicated) of targets of `show` effects anywhere in the rule set. -/
def showControlledOf (rules : List (ConditionRule α)) : List String :=
  rules.foldl
    (fun acc rule =>
      rule.effects.foldl
        (fun acc2 e =>
          match e with
          | .showE f => addUniq acc2 f
          | _ => acc2)
        acc)
    []

/-- Source `parentPath`: drop the last dot segment (empty for segment-free
paths). -/
def parentPath (path : String) : String :=
  let parts := splitDot path
  if parts.length ≤ 1 then "" else String.intercalate "." parts.dropLast

/-- Source children-map rebuild: for every registered field with a non-empty
parent path, append it to its parent's child list. -/
def childrenMapOf (keys : List String) : Rec (List String) :=
  keys.foldl
    (fun m field =>
      let p := parentPath field
      if p = "" then m else recUpdate m p fun old => old.getD [] ++ [field])
    []

/-- Child list of a node in the children map. -/
def childrenOf (keys : List String) (node : String) : List String :=
  (recFind? (childrenMapOf keys) node).getD []

/-- Visit order of `walkSubtree`'s iterative stack DFS: the root, then the
subtree of each child, children in reverse push order.  `fuel` bounds the
recursion depth; the bridge passes one more than the number of registered
keys, which exceeds the depth of any parent-child chain. -/
def walkList (keys : List String) : Nat → String → List String
  | 0, root => [root]
  | n + 1, root => root :: (childrenOf keys root).reverse.flatMap (walkList keys n)

/-- Baseline / cascade hide patch `{visible: false, validate: false}`. -/
def metaPatchHideAll : PMeta := ⟨some false, none, some false⟩

/-- Cascade show patch `{visible: true, validate: true}`. -/
def metaPatchShowAll : PMeta := ⟨some true, none, some true⟩

/-- Source cascade-root set `new Set([...showControlledFields,
...Object.keys(meta)])` (insertion order, first occurrence kept). -/
def cascadeRootsOf (showControlled metaKeys : List String) : List String :=
  metaKeys.foldl addUniq (showControlled.foldl addUniq [])

/-- One cascade root: inspect the root's current (just-written) visibility; if
hidden force its walked subtree to `{visible: false, validate: false}`, if
shown force it to `{visible: true, validate: true}`, otherwise do nothing. -/
def cascadeTurn (keys : List String) (fuel : Nat) (sn : Store α × List Notif) (root : String) :
    Store α × List Notif :=
  match sn.1.metaMap root with
  | some m =>
      if m.visible = false then
        smicFold ((walkList keys fuel root).map fun f => (f, metaPatchHideAll)) sn
      else if m.visible = true then
        smicFold ((walkList keys fuel root).map fun f => (f, metaPatchShowAll)) sn
      else sn
  | none => sn

/-- Value-effect step: for each desired value, write it through `setValue`
only when it differs from the field's current stored value. -/
def valueStep [DecidableEq α] (desired : Rec (Option α)) (sn : Store α × List Notif) :
    Store α × List Notif :=
  desired.foldl
    (fun acc kv =>
      if readView acc.1.values kv.1 ≠ kv.2 then
        let r := setValue acc.1 kv.1 kv.2
        (r.1, acc.2 ++ r.2)
      else acc)
    sn

/-- One full bridge evaluation pass (`run` in the condition bridge): evaluate
the rules on the current snapshot, force every show-controlled field hidden
(baseline reset), apply the evaluator's meta patches, cascade each root's
just-written visibility over its walked subtree, then apply changed desired
values. -/
def run [DecidableEq α] (rules : List (ConditionRule α)) (s0 : Store α) :
    Store α × List Notif :=
  let showControlled := showControlledOf rules
  let eval := evaluateConditions (readView s0.values) rules
  let keys := recKeys s0.values
  let fuel := keys.length + 1
  let sn1 := smicFold (showControlled.map fun f => (f, metaPatchHideAll)) (s0, [])
  let sn2 := smicFold eval.meta sn1
  let roots := cascadeRootsOf showControlled (recKeys eval.meta)
  let sn3 := roots.foldl (cascadeTurn keys fuel) sn2
  valueStep eval.desiredValues sn3

/-! ## Statement-level observables -/

/-- Fields a rule triggers on a given input: the targets of its effects when
its predicate holds, nothing otherwise. -/
def triggeredFields (r : ConditionRule α) (v : Values α) : List String :=
  if r.when v then r.effects.map Effect.target else []

/-- A predicate program that reads the given keys in order and then throws. -/
def readsThenThrow (ks : List String) : PredProg α :=
  ks.foldr (fun k acc => .readK k fun _ => acc) .throwEx

/-! ## Lemmas about the instrumented evaluator -/

theorem applyEffectLog_out (values : Values α) (st : EvalOutL α) (e : Effect α) :
    (applyEffectLog values st e).out = applyEffect values st.out e := by
  cases e with
  | setE f v => cases v <;> rfl
  | _ => rfl

theorem applyEffectLog_args (values : Values α) (st : EvalOutL α) (e : Effect α) :
    ∀ u ∈ (applyEffectLog values st e).args, u ∈ st.args ∨ u = values := by
  intro u hu
  cases e with
  | setE f v =>
      cases v with
      | lit x => exact Or.inl hu
      | fn g =>
          simp only [applyEffectLog, List.mem_append, List.mem_singleton] at hu
          exact hu
  | _ => exact Or.inl hu

theorem effectsFoldLog_out (values : Values α) (l : List (Effect α)) (st : EvalOutL α) :
    (l.foldl (applyEffectLog values) st).out = l.foldl (applyEffect values) st.out := by
  induction l generalizing st with
  | nil => rfl
  | cons e l ih => simpa [applyEffectLog_out] using ih (applyEffectLog values st e)

theorem effectsFoldLog_args (values : Values α) (l : List (Effect α)) (st : EvalOutL α) :
    ∀ u ∈ (l.foldl (applyEffectLog values) st).args, u ∈ st.args ∨ u = values := by
  induction l generalizing st with
  | nil => exact fun u hu => Or.inl hu
  | cons e l ih =>
      intro u hu
      rcases ih (applyEffectLog values st e) u hu with h | h
      · exact applyEffectLog_args values st e u h
      · exact Or.inr h

theorem evaluateConditionsLog_out (values : Values α) (rules : List (ConditionRule α)) :
    (evaluateConditionsLog values rules).out = evaluateConditions values rules := by
  unfold evaluateConditionsLog evaluateConditions
  generalize sortRules rules = l
  suffices h : ∀ (st : EvalOutL α),
      (l.foldl (fun st rule =>
        if rule.when values then rule.effects.foldl (applyEffectLog values) st else st) st).out
      = l.foldl (fun st rule =>
          if rule.when values then rule.effects.foldl (applyEffect values) st else st) st.out by
    exact h ⟨⟨[], []⟩, []⟩
  intro st
  induction l generalizing st with
  | nil => rfl
  | cons r l ih =>
      by_cases hw : r.when values = true
      · simpa [hw, effectsFoldLog_out] using ih (r.effects.foldl (applyEffectLog values) st)
      · simp only [Bool.not_eq_true] at hw
        simpa [hw] using ih st

theorem evaluateConditionsLog_args (values : Values α) (rules : List (ConditionRule α)) :
    ∀ u ∈ (evaluateConditionsLog values rules).args, u = values := by
  unfold evaluateConditionsLog
  generalize sortRules rules = l
  suffices h : ∀ (st : EvalOutL α),
      (∀ u ∈ st.args, u = values) →
      ∀ u ∈ (l.foldl (fun st rule =>
        if rule.when values then rule.effects.foldl (applyEffectLog values) st else st) st).args,
        u = values by
    exact h ⟨⟨[], []⟩, []⟩ (by intro u hu; cases hu)
  intro st hst
  induction l generalizing st with
  | nil => exact hst
  | cons r l ih =>
      by_cases hw : r.when values = true
      · simp only [List.foldl_cons, hw, if_pos]
        refine ih (r.effects.foldl (applyEffectLog values) st) ?_
        intro u hu
        rcases effectsFoldLog_args values r.effects st u hu with h | h
        · exact hst u h
        · exact h
      · simp only [Bool.not_eq_true] at hw
        simp only [List.foldl_cons, hw, Bool.false_eq_true, if_false]
        exact ih st hst

/-! ## Claim C1 -/

/-- Concrete value snapshot for the priority-conflict scenario. -/
def c1Values : Values Int := fun _ => none

/-- Always-true priority-10 rule showing field `f`. -/
def c1RuleShow10 : ConditionRule Int := ⟨fun _ => true, [Effect.showE "f"], some 10⟩

/-- Always-true priority-5 rule hiding field `f`. -/
def c1RuleHide5 : ConditionRule Int := ⟨fun _ => true, [Effect.hideE "f"], some 5⟩

/-- C1 (code-bug evidence): with both rules true and targeting field `f`,
`evaluateConditions` sorts descending by priority and applies effects with
last-write-wins, so it is the PRIORITY-5 rule's effect (`visible := false`)
that survives in the result, in either declaration order — contradicting the
claim (and the repository README's "higher priority wins") under which the
priority-10 `show` (`visible := true`) had to be observed. -/
theorem evaluate_priority_conflict_low_wins :
    recFind? (evaluateConditions c1Values [c1RuleShow10, c1RuleHide5]).meta "f"
      = some ⟨some false, none, none⟩ ∧
    recFind? (evaluateConditions c1Values [c1RuleHide5, c1RuleShow10]).meta "f"
      = some ⟨some false, none, none⟩ ∧
    (⟨some false, none, none⟩ : PMeta) ≠ ⟨some true, none, none⟩ :=
  ⟨rfl, rfl, by decide⟩

/-! ## Claim C5 -/

/-- Value snapshot `{qty: 20, price: 10}`. -/
def c5Values20 : Values ℚ :=
  fun k => if k = "qty" then some 20 else if k = "price" then some 10 else none

/-- Value snapshot `{qty: 5, price: 10}`. -/
def c5Values5 : Values ℚ :=
  fun k => if k = "qty" then some 5 else if k = "price" then some 10 else none

/-- The rule `when(v.qty > 10).setValue("total", v => v.qty * v.price * 0.9)`
(JS reads of absent keys yield `undefined`, whose `>` comparison is false; for
these inputs the double computation `20 * 10 * 0.9` is exactly `180`, matching
the exact rational model). -/
def c5Rule : ConditionRule ℚ :=
  ⟨fun v => match v "qty" with | some q => decide (q > 10) | none => false,
   [Effect.setE "total" (SetVal.fn fun v =>
      match v "qty", v "price" with
      | some q, some p => some (q * p * (9 / 10))
      | _, _ => none)],
   none⟩

/-- C5: `set` value functions observe exactly the original input value map.
Concretely, `{qty: 20, price: 10}` produces `desiredValues.total === 180` and
`{qty: 5, price: 10}` produces no `total` entry in the patch; in general the
instrumented evaluator (which logs every argument handed to a `set` value
function but otherwise computes identically) only ever passes the original
input map, never the in-progress patch. -/
theorem set_function_sees_original_values :
    recFind? (evaluateConditions c5Values20 [c5Rule]).desiredValues "total" = some (some 180) ∧
    recFind? (evaluateConditions c5Values5 [c5Rule]).desiredValues "total" = none ∧
    ∀ (α : Type) (values : Values α) (rules : List (ConditionRule α)),
      (evaluateConditionsLog values rules).out = evaluateConditions values rules ∧
      ∀ u ∈ (evaluateConditionsLog values rules).args, u = values := by
  refine ⟨?_, rfl, ?_⟩
  · show recFind? [("total", some (20 * 10 * (9 / 10) : ℚ))] "total" = some (some 180)
    norm_num [recFind?]
  intro α values rules
  exact ⟨evaluateConditionsLog_out values rules, evaluateConditionsLog_args values rules⟩

/-- C5 witness: the general part of the theorem applied at the concrete
scenario, including a discharged membership hypothesis (the logged argument
list of the scenario run is exactly the original input map). -/
theorem set_function_sees_original_values_witness :
    (evaluateConditionsLog c5Values20 [c5Rule]).out = evaluateConditions c5Values20 [c5Rule] ∧
    c5Values20 = c5Values20 :=
  ⟨(set_function_sees_original_values.2.2 ℚ c5Values20 [c5Rule]).1,
   (set_function_sees_original_values.2.2 ℚ c5Values20 [c5Rule]).2 c5Values20
     (List.mem_singleton.mpr rfl)⟩

/-! ## Claim C6 -/

/-- C6 counterexample: build `when(true_).else()`, read its rules, then call
the else-builder's `show("b")`.  The appender returns the very same reference
(TS `return this` after an in-place `push`), and `toRules()` on the ORIGINAL
reference now differs from what it yielded before the append — the
previously returned builder was mutated, refuting the claim that every
builder value is persistent. -/
theorem else_builder_mutation_counterexample :
    (ElseEffectBuilder.show
        (EffectBuilder.elseB (whenB ([] : DslHeap Int) fun _ => true).1
          (whenB ([] : DslHeap Int) fun _ => true).2).1
        (EffectBuilder.elseB (whenB ([] : DslHeap Int) fun _ => true).1
          (whenB ([] : DslHeap Int) fun _ => true).2).2 "b").2
      = (EffectBuilder.elseB (whenB ([] : DslHeap Int) fun _ => true).1
          (whenB ([] : DslHeap Int) fun _ => true).2).2 ∧
    (toRulesB
        (EffectBuilder.elseB (whenB ([] : DslHeap Int) fun _ => true).1
          (whenB ([] : DslHeap Int) fun _ => true).2).1
        (EffectBuilder.elseB (whenB ([] : DslHeap Int) fun _ => true).1
          (whenB ([] : DslHeap Int) fun _ => true).2).2).map
      (fun r => r.effects.map Effect.target) = [[], []] ∧
    (toRulesB
        (ElseEffectBuilder.show
          (EffectBuilder.elseB (whenB ([] : DslHeap Int) fun _ => true).1
            (whenB ([] : DslHeap Int) fun _ => true).2).1
          (EffectBuilder.elseB (whenB ([] : DslHeap Int) fun _ => true).1
            (whenB ([] : DslHeap Int) fun _ => true).2).2 "b").1
        (EffectBuilder.elseB (whenB ([] : DslHeap Int) fun _ => true).1
          (whenB ([] : DslHeap Int) fun _ => true).2).2).map
      (fun r => r.effects.map Effect.target) = [[], ["b"]] ∧
    ([[], ["b"]] : List (List String)) ≠ [[], []] :=
  ⟨rfl, rfl, rfl, by decide⟩

/-- C6 amended: the claim holds for the plain `when`-chain builder
(`EffectBuilder`): every effect appender allocates a fresh builder at a new
reference and leaves the original object — hence what `toRules()` yields on
it — unchanged.  The builder returned by `else()` is the exception refuted by
the counterexample. -/
theorem effect_builder_immutable_amended (h : DslHeap α) (r : BRef) (st : EffState α)
    (e : Effect α) (hr : readObj h r = some (.eff st)) :
    (effAppend h r e).2 ≠ r ∧
    readObj (effAppend h r e).1 r = readObj h r ∧
    toRulesB (effAppend h r e).1 r = toRulesB h r := by
  have hlt : r < h.length := by
    by_contra hge
    rw [readObj, List.getElem?_eq_none (Nat.le_of_not_lt hge)] at hr
    cases hr
  have happ : effAppend h r e
      = (h ++ [BuilderObj.eff { st with effects := st.effects ++ [e] }], h.length) := by
    rw [effAppend, hr]
    rfl
  have hro : readObj (effAppend h r e).1 r = readObj h r := by
    rw [happ, readObj, readObj, List.getElem?_append_left hlt]
  refine ⟨?_, hro, ?_⟩
  · rw [happ]
    exact fun hc => absurd hc.symm (Nat.ne_of_lt hlt)
  · rw [toRulesB, toRulesB, hro]

/-- C6 amended witness: the immutability statement applied to a concrete
one-object heap and a concrete `show` append. -/
theorem effect_builder_immutable_amended_witness :
    (effAppend ([BuilderObj.eff ⟨fun _ => true, [], none⟩] : DslHeap Int) 0
        (Effect.showE "a")).2 ≠ 0 ∧
    readObj (effAppend ([BuilderObj.eff ⟨fun _ => true, [], none⟩] : DslHeap Int) 0
        (Effect.showE "a")).1 0
      = readObj ([BuilderObj.eff ⟨fun _ => true, [], none⟩] : DslHeap Int) 0 ∧
    toRulesB (effAppend ([BuilderObj.eff ⟨fun _ => true, [], none⟩] : DslHeap Int) 0
        (Effect.showE "a")).1 0
      = toRulesB ([BuilderObj.eff ⟨fun _ => true, [], none⟩] : DslHeap Int) 0 :=
  effect_builder_immutable_amended [BuilderObj.eff ⟨fun _ => true, [], none⟩] 0
    ⟨fun _ => true, [], none⟩ (Effect.showE "a") rfl

/-! ## Claim C2 -/

/-- C2: `toRules()` on any else-builder object yields exactly two rules with
the same priority whose predicates are pointwise mutual negations
(`invertWhen`), so that on any input at most one of the two is applied and
their triggered field sets are disjoint. -/
theorem else_toRules_negation (h : DslHeap α) (r : BRef) (st : ElseState α)
    (hr : readObj h r = some (.els st)) :
    ∃ r1 r2 : ConditionRule α,
      toRulesB h r = [r1, r2] ∧
      r1.priority = r2.priority ∧
      (∀ v : Values α, r2.when v = !(r1.when v)) ∧
      (∀ v : Values α, r1.when v = true → r2.when v = false) ∧
      (∀ v : Values α, List.Disjoint (triggeredFields r1 v) (triggeredFields r2 v)) := by
  refine ⟨⟨st.whenFn, st.thenEffects, st.priority⟩,
    ⟨invertWhen st.whenFn, st.elseEffects, st.priority⟩, ?_, rfl, ?_, ?_, ?_⟩
  · rw [toRulesB, hr]
    rfl
  · intro v
    rfl
  · intro v hv
    have hv2 : st.whenFn v = true := hv
    show invertWhen st.whenFn v = false
    simp [invertWhen, hv2]
  · intro v
    by_cases hv : st.whenFn v = true
    · have h2 : invertWhen st.whenFn v = false := by simp [invertWhen, hv]
      simp [triggeredFields, h2, List.Disjoint]
    · simp only [Bool.not_eq_true] at hv
      simp [triggeredFields, hv, List.Disjoint]

/-- C2 witness: the theorem applied to the heap built by the DSL chain
`when(p).show("cardNumber").else().show("bankAccount")`, whose else-builder
object it instantiates concretely. -/
theorem else_toRules_negation_witness :
    ∃ r1 r2 : ConditionRule Int,
      toRulesB
        (ElseEffectBuilder.show
          (EffectBuilder.elseB
            (EffectBuilder.show (whenB ([] : DslHeap Int) fun v => v "country" == some 1).1
              (whenB ([] : DslHeap Int) fun v => v "country" == some 1).2 "cardNumber").1
            (EffectBuilder.show (whenB ([] : DslHeap Int) fun v => v "country" == some 1).1
              (whenB ([] : DslHeap Int) fun v => v "country" == some 1).2 "cardNumber").2).1
          (EffectBuilder.elseB
            (EffectBuilder.show (whenB ([] : DslHeap Int) fun v => v "country" == some 1).1
              (whenB ([] : DslHeap Int) fun v => v "country" == some 1).2 "cardNumber").1
            (EffectBuilder.show (whenB ([] : DslHeap Int) fun v => v "country" == some 1).1
              (whenB ([] : DslHeap Int) fun v => v "country" == some 1).2 "cardNumber").2).2
          "bankAccount").1
        2
      = [r1, r2] ∧
      r1.priority = r2.priority ∧
      (∀ v : Values Int, r2.when v = !(r1.when v)) ∧
      (∀ v : Values Int, r1.when v = true → r2.when v = false) ∧
      (∀ v : Values Int, List.Disjoint (triggeredFields r1 v) (triggeredFields r2 v)) :=
  else_toRules_negation _ 2 _ rfl

/-! ## Claim C9 -/

theorem addUniq_mem (acc : List String) (k x : String) :
    x ∈ addUniq acc k ↔ x ∈ acc ∨ x = k := by
  unfold addUniq
  by_cases hk : k ∈ acc
  · simp only [hk, if_pos]
    constructor
    · exact Or.inl
    · rintro (hx | rfl)
      · exact hx
      · exact hk
  · simp [hk]

theorem traceRun_eq_foldl (values : Values α) (fn : PredProg α) :
    ∀ acc : List String, traceRun values acc fn = (predReads values fn).foldl addUniq acc := by
  induction fn with
  | ret b => intro acc; rfl
  | throwEx => intro acc; rfl
  | readK k cont ih =>
      intro acc
      rw [traceRun, predReads, List.foldl_cons]
      exact ih (values k) (addUniq acc k)

theorem predReads_readsThenThrow (values : Values α) (ks : List String) :
    predReads values (readsThenThrow ks) = ks := by
  induction ks with
  | nil => rfl
  | cons k ks ih =>
      rw [readsThenThrow, List.foldr_cons, predReads]
      rw [readsThenThrow] at ih
      rw [ih]

theorem predResult_readsThenThrow (values : Values α) (ks : List String) :
    predResult values (readsThenThrow ks) = none := by
  induction ks with
  | nil => rfl
  | cons k ks ih =>
      rw [readsThenThrow, List.foldr_cons, predResult]
      rw [readsThenThrow] at ih
      exact ih

/-- C9: `traceReads` returns exactly the (insertion-ordered, deduplicated)
set of keys the predicate reads from the wrapped map during one run, and it
returns normally even for a throwing predicate: a program that reads the keys
`ks` and then throws (so its untraced run yields no result) still produces
exactly the keys recorded before the throw. -/
theorem traceReads_records_reads_and_swallows :
    ∀ (α : Type) (values : Values α),
      (∀ fn : PredProg α, traceReads fn values = dedupFirst (predReads values fn)) ∧
      (∀ ks : List String,
        predResult values (readsThenThrow (α := α) ks) = none ∧
        traceReads (readsThenThrow (α := α) ks) values = dedupFirst ks) := by
  intro α values
  constructor
  · intro fn
    rw [traceReads, dedupFirst, traceRun_eq_foldl]
  · intro ks
    refine ⟨predResult_readsThenThrow values ks, ?_⟩
    rw [traceReads, traceRun_eq_foldl, predReads_readsThenThrow, dedupFirst]

/-! ## Claim C8 -/

theorem bridgeMerged_some (m : FieldMeta) (patch : PMeta) :
    bridgeMerged (some m) patch = toPMeta (some (mergeMeta m patch)) := by
  cases patch with
  | mk v e va =>
      cases v <;> cases e <;> cases va <;> rfl

theorem metaShallowEqual_refl (p : PMeta) : metaShallowEqual p p = true := by
  simp [metaShallowEqual]

/-- C8: change suppression of meta writes during a pass.  A pass-level meta
write (`setMetaIfChanged`) that finds the merged result shallow-equal to the
field's current meta leaves the store entirely unchanged and emits zero
notifications; in particular re-applying a patch whose merge into the field's
current meta is that meta itself is such a no-op.  Moreover the store's
`setMeta` emits a meta-subscriber notification only if one of
`visible`/`enabled`/`validate` actually changed: when the merged record equals
the previous one, no meta notification is produced. -/
theorem meta_write_change_suppression (α : Type) (s : Store α) (name : String) (patch : PMeta) :
    (metaShallowEqual (toPMeta (s.metaMap name)) (bridgeMerged (s.metaMap name) patch) = true →
      setMetaIfChanged s name patch = (s, [])) ∧
    (∀ m : FieldMeta, s.metaMap name = some m → mergeMeta m patch = m →
      setMetaIfChanged s name patch = (s, [])) ∧
    (mergeMeta ((s.metaMap name).getD ⟨true, true, true⟩) patch
        = (s.metaMap name).getD ⟨true, true, true⟩ →
      Notif.meta name ∉ (setMeta s name patch).2) := by
  refine ⟨?_, ?_, ?_⟩
  · intro hguard
    rw [setMetaIfChanged, if_pos hguard]
  · intro m hm hmerge
    rw [setMetaIfChanged, hm, bridgeMerged_some, hmerge, if_pos (metaShallowEqual_refl _)]
  · intro hmerge hmem
    simp only [setMeta, hmerge, ne_eq, not_true_eq_false, or_self, if_false,
      List.append_nil] at hmem
    repeat' split at hmem
    all_goals simp at hmem

/-- Concrete store for the C8 witness: one registered field `f` with default
meta. -/
def c8Store : Store Int where
  values := [("f", some 1)]
  errors := fun _ => .nullv
  metaMap := fun k => if k = "f" then some ⟨true, true, true⟩ else none
  pending := fun _ => false
  lastValidated := fun _ => none
  validators := fun _ => []

/-- C8 witness: re-applying the patch `{visible: true}` — identical to the
current merged meta of `f` — through the pass's write path leaves the store
untouched with zero notifications, and the store-level write emits no meta
notification either. -/
theorem meta_write_change_suppression_witness :
    setMetaIfChanged c8Store "f" ⟨some true, none, none⟩ = (c8Store, []) ∧
    Notif.meta "f" ∉ (setMeta c8Store "f" ⟨some true, none, none⟩).2 :=
  ⟨(meta_write_change_suppression Int c8Store "f" ⟨some true, none, none⟩).2.1
      ⟨true, true, true⟩ rfl rfl,
   (meta_write_change_suppression Int c8Store "f" ⟨some true, none, none⟩).2.2 rfl⟩

/-! ## Claim C10 -/

theorem fupd_same (f : String → β) (k : String) (v : β) : fupd f k v k = v := by
  simp [fupd]

theorem fupd_other (f : String → β) (k x : String) (v : β) (hx : x ≠ k) :
    fupd f k v x = f x := by
  simp [fupd, hx]

theorem setValue_lastValidated (s : Store α) (k : String) (v : Option α) :
    (setValue s k v).1.lastValidated = fupd s.lastValidated k none := by
  simp only [setValue]
  split <;> rfl

theorem setValue_metaMap (s : Store α) (k : String) (v : Option α) :
    (setValue s k v).1.metaMap = s.metaMap := by
  simp only [setValue]
  split <;> rfl

/-- A pending resolution handed out by the validator loop carries the loop's
own key and dispatch-time value. -/
theorem runValidators_pending (key : String) (value : Option α) (vals : Values α) :
    ∀ (l : List (ValidatorR α)) (s0 s1 : Store α) (r : Option String) (ns : List Notif)
      (p : PendingRes α),
      runValidators key value vals s0 l = (s1, r, ns, some p) →
      p.key = key ∧ p.valueAtStart = value := by
  intro l
  induction l with
  | nil =>
      intro s0 s1 r ns p h
      unfold runValidators at h
      split at h <;> simp at h
  | cons v rest ih =>
      intro s0 s1 r ns p h
      unfold runValidators at h
      split at h
      · -- async dispatch: p is built as ⟨key, value, m⟩
        simp only [Prod.mk.injEq] at h
        rw [← Option.some.inj h.2.2.2]
        exact ⟨rfl, rfl⟩
      · split at h
        · split at h <;> simp at h
        · exact ih s0 s1 r ns p h

/-- C10: a stale async resolution is a no-op.  If `validateField` dispatches
an async validator on a store whose last-validated record for the field is
absent or equal to the field's current value (an invariant of all reachable
stores: every write to a field's value deletes or refreshes the record), and
the field's value is then changed through `setValue` before the promise
resolves, then the resolution only clears the pending flag: the error map is
not modified and no notification is emitted.  The staleness test is exactly
the identity comparison of the dispatch-time value against the last-validated
record, which `setValue` has deleted. -/
theorem stale_async_resolution_noop {α : Type} [DecidableEq α] (s : Store α) (key : String)
    (s1 : Store α) (ret : Option String) (ns : List Notif) (p : PendingRes α) (w : Option α)
    (hinv : s.lastValidated key = none ∨ s.lastValidated key = readView s.values key)
    (hdisp : validateField s key = (s1, ret, ns, some p)) :
    resolvePending (setValue s1 p.key w).1 p
      = ({ (setValue s1 p.key w).1 with
            pending := fupd (setValue s1 p.key w).1.pending p.key false }, []) ∧
    (resolvePending (setValue s1 p.key w).1 p).1.errors = (setValue s1 p.key w).1.errors ∧
    (resolvePending (setValue s1 p.key w).1 p).2 = [] := by
  unfold validateField at hdisp
  split at hdisp
  · split at hdisp <;> simp at hdisp
  · split at hdisp
    · simp at hdisp
    · split at hdisp
      · split at hdisp <;> simp at hdisp
      · split at hdisp
        · simp at hdisp
        · rename_i hgate
          obtain ⟨hpk, hpv⟩ := runValidators_pending key (readView s.values key)
            (readView s.values) (s.validators key) _ s1 ret ns p hdisp
          have hdef : ∃ a, readView s.values key = some a := by
            rcases hinv with h0 | h0
            · rcases hxv : readView s.values key with _ | a
              · exact absurd (h0.trans hxv.symm) hgate
              · exact ⟨a, rfl⟩
            · exact absurd h0 hgate
          obtain ⟨a, ha⟩ := hdef
          have hstale : (setValue s1 p.key w).1.lastValidated p.key ≠ p.valueAtStart := by
            rw [setValue_lastValidated, fupd_same, hpv, ha]
            exact fun hc => Option.noConfusion hc
          have heq : resolvePending (setValue s1 p.key w).1 p
              = ({ (setValue s1 p.key w).1 with
                    pending := fupd (setValue s1 p.key w).1.pending p.key false }, []) := by
            unfold resolvePending
            by_cases hv2 : isEffectivelyValidatable p.key (setValue s1 p.key w).1.metaMap = true
            · rw [if_neg (by simp [hv2]), if_pos hstale]
            · rw [if_pos (by simpa using hv2)]
          exact ⟨heq, by rw [heq], by rw [heq]⟩

/-- Concrete store for the C10 witness: registered field `f` with value `7`
and one async validator resolving to the message `boom`. -/
def c10Store : Store Int where
  values := [("f", some 7)]
  errors := fun _ => .nullv
  metaMap := fun k => if k = "f" then some ⟨true, true, true⟩ else none
  pending := fun _ => false
  lastValidated := fun _ => none
  validators := fun k => if k = "f" then [fun _ _ => VResult.async (some "boom")] else []

/-- C10 witness: dispatch the async validator of `f` (captured value `7`),
change the value to `9`, then resolve: the resolution only clears the pending
flag and emits no notification. -/
theorem stale_async_resolution_noop_witness :
    resolvePending (setValue (validateField c10Store "f").1 "f" (some 9)).1
        ⟨"f", some 7, some "boom"⟩
      = ({ (setValue (validateField c10Store "f").1 "f" (some 9)).1 with
            pending :=
              fupd (setValue (validateField c10Store "f").1 "f" (some 9)).1.pending "f" false },
         []) ∧
    (resolvePending (setValue (validateField c10Store "f").1 "f" (some 9)).1
        ⟨"f", some 7, some "boom"⟩).1.errors
      = (setValue (validateField c10Store "f").1 "f" (some 9)).1.errors ∧
    (resolvePending (setValue (validateField c10Store "f").1 "f" (some 9)).1
        ⟨"f", some 7, some "boom"⟩).2 = [] :=
  stale_async_resolution_noop c10Store "f" (validateField c10Store "f").1
    (validateField c10Store "f").2.1 (validateField c10Store "f").2.2.1
    ⟨"f", some 7, some "boom"⟩ (some 9) (Or.inl rfl) rfl

/-! ## Record and set-membership lemmas -/

theorem recFind?_update_self (r : Rec β) (k : String) (f : Option β → β) :
    recFind? (recUpdate r k f) k = some (f (recFind? r k)) := by
  induction r with
  | nil => simp [recUpdate, recFind?]
  | cons kv rest ih =>
      by_cases hk : kv.1 = k
      · simp [recUpdate, recFind?, hk]
      · simp [recUpdate, recFind?, hk, ih]

theorem recFind?_update_other (r : Rec β) (k x : String) (f : Option β → β) (hx : x ≠ k) :
    recFind? (recUpdate r k f) x = recFind? r x := by
  induction r with
  | nil => simp [recUpdate, recFind?, Ne.symm hx]
  | cons kv rest ih =>
      by_cases hk : kv.1 = k
      · have hkx : kv.1 ≠ x := by rw [hk]; exact Ne.symm hx
        simp [recUpdate, recFind?, hk, hkx, Ne.symm hx]
      · by_cases hxk : kv.1 = x
        · simp [recUpdate, recFind?, hk, hxk, hx]
        · simp [recUpdate, recFind?, hk, hxk, ih]

theorem foldl_addUniq_mem (l : List String) (x : String) :
    ∀ acc : List String, x ∈ l.foldl addUniq acc ↔ x ∈ acc ∨ x ∈ l := by
  induction l with
  | nil => intro acc; simp
  | cons k l ih =>
      intro acc
      rw [List.foldl_cons, ih, addUniq_mem, List.mem_cons]
      tauto

theorem cascadeRootsOf_mem (sc mk : List String) (x : String) :
    x ∈ cascadeRootsOf sc mk ↔ x ∈ sc ∨ x ∈ mk := by
  rw [cascadeRootsOf, foldl_addUniq_mem, foldl_addUniq_mem]
  simp [or_comm]

/-! ## setMeta / setMetaIfChanged structure lemmas -/

theorem setMeta_metaMap (s : Store α) (name : String) (p : PMeta) :
    (setMeta s name p).1.metaMap
      = fupd s.metaMap name (some (mergeMeta ((s.metaMap name).getD ⟨true, true, true⟩) p)) := by
  simp only [setMeta]
  repeat' split
  all_goals rfl

theorem smic_metaMap_other (s : Store α) (name k : String) (p : PMeta) (hk : k ≠ name) :
    ((setMetaIfChanged s name p).1).metaMap k = s.metaMap k := by
  unfold setMetaIfChanged
  split
  · rfl
  · rw [setMeta_metaMap, fupd_other _ _ _ _ hk]

/-- Writing a patch whose `visible` property is present pins the stored
`visible` at the written field (whether the guard passes or skips). -/
theorem smic_visible_forced (s : Store α) (name : String) (p : PMeta) (b : Bool)
    (hv : p.visible = some b) :
    ∃ m : FieldMeta, ((setMetaIfChanged s name p).1).metaMap name = some m ∧ m.visible = b := by
  unfold setMetaIfChanged
  split
  · rename_i hguard
    cases hprev : s.metaMap name with
    | none =>
        rw [hprev] at hguard
        simp [metaShallowEqual, toPMeta, bridgeMerged, overrideP, PMeta.empty, hv] at hguard
    | some m =>
        rw [hprev] at hguard
        simp [metaShallowEqual, toPMeta, bridgeMerged, overrideP, hv] at hguard
        exact ⟨m, rfl, hguard.1.1⟩
  · refine ⟨_, by rw [setMeta_metaMap, fupd_same], ?_⟩
    simp [mergeMeta, hv]

/-- Writing one of the cascade's paired patches
(`{visible: b, validate: b}`) pins both `visible` and `validate` at the
written field. -/
theorem smic_pair (s : Store α) (name : String) (b : Bool) :
    ∃ m : FieldMeta,
      ((setMetaIfChanged s name ⟨some b, none, some b⟩).1).metaMap name = some m ∧
      m.visible = b ∧ m.validate = b := by
  unfold setMetaIfChanged
  split
  · rename_i hguard
    cases hprev : s.metaMap name with
    | none =>
        rw [hprev] at hguard
        simp [metaShallowEqual, toPMeta, bridgeMerged, overrideP, PMeta.empty] at hguard
    | some m =>
        rw [hprev] at hguard
        simp [metaShallowEqual, toPMeta, bridgeMerged, overrideP] at hguard
        exact ⟨m, rfl, hguard⟩
  · refine ⟨_, by rw [setMeta_metaMap, fupd_same], ?_, ?_⟩
    all_goals simp [mergeMeta]

/-- A field's stored meta never reverts to `undefined` through a pass write. -/
theorem smic_keep_some (s : Store α) (name k : String) (p : PMeta)
    (h : s.metaMap k ≠ none) :
    ((setMetaIfChanged s name p).1).metaMap k ≠ none := by
  by_cases hk : k = name
  · subst hk
    unfold setMetaIfChanged
    split
    · exact h
    · rw [setMeta_metaMap, fupd_same]
      exact fun hc => Option.noConfusion hc
  · rw [smic_metaMap_other s name k p hk]
    exact h

/-- After a pass write at a field, its stored meta is defined. -/
theorem smic_some (s : Store α) (name : String) (p : PMeta) :
    ((setMetaIfChanged s name p).1).metaMap name ≠ none := by
  unfold setMetaIfChanged
  split
  · rename_i hguard
    cases hprev : s.metaMap name with
    | none =>
        rw [hprev] at hguard
        rcases hp : p.visible with _ | b <;>
          simp [metaShallowEqual, toPMeta, bridgeMerged, overrideP, PMeta.empty, hp] at hguard
    | some m => exact fun hc => Option.noConfusion hc
  · rw [setMeta_metaMap, fupd_same]
    exact fun hc => Option.noConfusion hc

/-! ## Invariant predicates over stored meta -/

/-- The spec's invariant at a field: if the stored meta is invisible then it
is also non-validatable. -/
def metaInv (s : Store α) (f : String) : Prop :=
  ∀ m : FieldMeta, s.metaMap f = some m → m.visible = false → m.validate = false

/-- The field's stored meta is defined, hidden and non-validatable. -/
def metaHidden (s : Store α) (f : String) : Prop :=
  ∃ m : FieldMeta, s.metaMap f = some m ∧ m.visible = false ∧ m.validate = false

theorem smic_pair_metaInv_self (s : Store α) (name : String) (b : Bool) :
    metaInv (setMetaIfChanged s name ⟨some b, none, some b⟩).1 name := by
  obtain ⟨m, hm, hv, hval⟩ := smic_pair s name b
  intro m2 hm2 hvis
  rw [hm] at hm2
  obtain rfl := Option.some.inj hm2
  cases b with
  | false => exact hval
  | true =>
      rw [hv] at hvis
      exact Bool.noConfusion hvis

theorem smic_pair_metaInv (s : Store α) (name : String) (b : Bool) (g : String)
    (h : metaInv s g) : metaInv (setMetaIfChanged s name ⟨some b, none, some b⟩).1 g := by
  by_cases hg : g = name
  · subst hg
    exact smic_pair_metaInv_self s g b
  · intro m hm hv
    rw [smic_metaMap_other s name g _ hg] at hm
    exact h m hm hv

/-- Every patch pushed by the cascade's subtree folds is one of the two
paired patches. -/
theorem mapped_patch_pair (w : List String) (patch : PMeta)
    (hp : patch = metaPatchHideAll ∨ patch = metaPatchShowAll) :
    ∀ kp ∈ w.map (fun x => (x, patch)), kp.2 = metaPatchHideAll ∨ kp.2 = metaPatchShowAll := by
  intro kp hkp
  obtain ⟨x, _, rfl⟩ := List.mem_map.mp hkp
  exact hp

theorem smicFold_pair_metaInv (l : List (String × PMeta)) (g : String) :
    ∀ sn : Store α × List Notif,
      (∀ kp ∈ l, kp.2 = metaPatchHideAll ∨ kp.2 = metaPatchShowAll) →
      metaInv sn.1 g → metaInv (smicFold l sn).1 g := by
  induction l with
  | nil => exact fun sn _ h => h
  | cons kp l ih =>
      intro sn hl h
      have hstep : metaInv ((setMetaIfChanged sn.1 kp.1 kp.2).1) g := by
        rcases hl kp (List.mem_cons_self _ _) with hp | hp <;> rw [hp]
        · exact smic_pair_metaInv sn.1 kp.1 false g h
        · exact smic_pair_metaInv sn.1 kp.1 true g h
      exact ih ((setMetaIfChanged sn.1 kp.1 kp.2).1, sn.2 ++ (setMetaIfChanged sn.1 kp.1 kp.2).2)
        (fun x hx => hl x (List.mem_cons_of_mem _ hx)) hstep

theorem smicFold_pair_establishes (l : List (String × PMeta)) (f : String) :
    ∀ sn : Store α × List Notif,
      (∀ kp ∈ l, kp.2 = metaPatchHideAll ∨ kp.2 = metaPatchShowAll) →
      f ∈ l.map Prod.fst → metaInv (smicFold l sn).1 f := by
  induction l with
  | nil => intro sn _ hf; cases hf
  | cons kp l ih =>
      intro sn hl hf
      by_cases hfl : f ∈ l.map Prod.fst
      · exact ih _ (fun x hx => hl x (List.mem_cons_of_mem _ hx)) hfl
      · rw [List.map_cons] at hf
        have hfeq : kp.1 = f := by
          rcases List.mem_cons.mp hf with h | h
          · exact h.symm
          · exact absurd h hfl
        have hstep : metaInv ((setMetaIfChanged sn.1 kp.1 kp.2).1) f := by
          rw [hfeq]
          rcases hl kp (List.mem_cons_self _ _) with hp | hp <;> rw [hp]
          · exact smic_pair_metaInv_self sn.1 f false
          · exact smic_pair_metaInv_self sn.1 f true
        exact smicFold_pair_metaInv l f
          ((setMetaIfChanged sn.1 kp.1 kp.2).1, sn.2 ++ (setMetaIfChanged sn.1 kp.1 kp.2).2)
          (fun x hx => hl x (List.mem_cons_of_mem _ hx)) hstep

theorem smicFold_keep_some (l : List (String × PMeta)) (k : String) :
    ∀ sn : Store α × List Notif,
      sn.1.metaMap k ≠ none → (smicFold l sn).1.metaMap k ≠ none := by
  induction l with
  | nil => exact fun sn h => h
  | cons kp l ih =>
      intro sn h
      exact ih ((setMetaIfChanged sn.1 kp.1 kp.2).1, sn.2 ++ (setMetaIfChanged sn.1 kp.1 kp.2).2)
        (smic_keep_some sn.1 kp.1 k kp.2 h)

theorem smicFold_some_of_mem (l : List (String × PMeta)) (f : String) :
    ∀ sn : Store α × List Notif,
      f ∈ l.map Prod.fst → (smicFold l sn).1.metaMap f ≠ none := by
  induction l with
  | nil => intro sn hf; cases hf
  | cons kp l ih =>
      intro sn hf
      by_cases hfl : f ∈ l.map Prod.fst
      · exact ih _ hfl
      · rw [List.map_cons] at hf
        have hfeq : kp.1 = f := by
          rcases List.mem_cons.mp hf with h | h
          · exact h.symm
          · exact absurd h hfl
        refine smicFold_keep_some l f _ ?_
        rw [← hfeq]
        exact smic_some sn.1 kp.1 kp.2

theorem smicFold_metaMap_other (l : List (String × PMeta)) (f : String) :
    ∀ sn : Store α × List Notif,
      f ∉ l.map Prod.fst → (smicFold l sn).1.metaMap f = sn.1.metaMap f := by
  induction l with
  | nil => exact fun sn _ => rfl
  | cons kp l ih =>
      intro sn hf
      have h1 : f ∉ l.map Prod.fst := fun h => hf (by simp [h])
      have h2 : f ≠ kp.1 := fun h => hf (by simp [h])
      exact (ih ((setMetaIfChanged sn.1 kp.1 kp.2).1,
          sn.2 ++ (setMetaIfChanged sn.1 kp.1 kp.2).2) h1).trans
        (smic_metaMap_other sn.1 kp.1 f kp.2 h2)

theorem smic_keepHidden (s : Store α) (f : String) (p : PMeta) (hh : metaHidden s f)
    (hv : p.visible ≠ some true) (hval : p.validate ≠ some true) :
    metaHidden (setMetaIfChanged s f p).1 f := by
  unfold setMetaIfChanged
  split
  · exact hh
  · obtain ⟨m, hm, hmv, hmval⟩ := hh
    refine ⟨mergeMeta ((s.metaMap f).getD ⟨true, true, true⟩) p,
      by rw [setMeta_metaMap, fupd_same], ?_, ?_⟩
    · rw [hm]
      cases hp : p.visible with
      | none => simpa [mergeMeta, hp] using hmv
      | some c =>
          cases c with
          | false => simp [mergeMeta, hp]
          | true => exact absurd hp hv
    · rw [hm]
      cases hp : p.validate with
      | none => simpa [mergeMeta, hp] using hmval
      | some c =>
          cases c with
          | false => simp [mergeMeta, hp]
          | true => exact absurd hp hval

theorem metaHidden_of_other (s : Store α) (name f : String) (p : PMeta) (hf : f ≠ name)
    (hh : metaHidden s f) : metaHidden (setMetaIfChanged s name p).1 f := by
  obtain ⟨m, hm, hmv, hmval⟩ := hh
  exact ⟨m, by rw [smic_metaMap_other s name f p hf]; exact hm, hmv, hmval⟩

theorem smicFold_keepHidden (l : List (String × PMeta)) (f : String) :
    ∀ sn : Store α × List Notif,
      metaHidden sn.1 f →
      (∀ kp ∈ l, kp.1 = f → kp.2.visible ≠ some true ∧ kp.2.validate ≠ some true) →
      metaHidden (smicFold l sn).1 f := by
  induction l with
  | nil => exact fun sn h _ => h
  | cons kp l ih =>
      intro sn hh hl
      have hstep : metaHidden ((setMetaIfChanged sn.1 kp.1 kp.2).1) f := by
        by_cases hfk : kp.1 = f
        · obtain ⟨h1, h2⟩ := hl kp (List.mem_cons_self _ _) hfk
          rw [hfk]
          exact smic_keepHidden sn.1 f kp.2 hh h1 h2
        · exact metaHidden_of_other sn.1 kp.1 f kp.2 (fun h => hfk h.symm) hh
      exact ih ((setMetaIfChanged sn.1 kp.1 kp.2).1, sn.2 ++ (setMetaIfChanged sn.1 kp.1 kp.2).2)
        hstep (fun x hx => hl x (List.mem_cons_of_mem _ hx))

theorem smic_hide_metaHidden (s : Store α) (name : String) :
    metaHidden (setMetaIfChanged s name metaPatchHideAll).1 name := by
  obtain ⟨m, hm, hv, hval⟩ := smic_pair s name false
  exact ⟨m, hm, hv, hval⟩

theorem smicFold_hide_establishes (w : List String) (f : String) :
    ∀ sn : Store α × List Notif,
      f ∈ w → metaHidden (smicFold (w.map fun x => (x, metaPatchHideAll)) sn).1 f := by
  induction w with
  | nil => intro sn hf; cases hf
  | cons k w ih =>
      intro sn hf
      simp only [List.map_cons]
      by_cases hfw : f ∈ w
      · exact ih _ hfw
      · have hfeq : k = f := by
          rcases List.mem_cons.mp hf with h | h
          · exact h.symm
          · exact absurd h hfw
        have hstep : metaHidden ((setMetaIfChanged sn.1 k metaPatchHideAll).1) f := by
          rw [hfeq]
          exact smic_hide_metaHidden sn.1 f
        refine smicFold_keepHidden (w.map fun x => (x, metaPatchHideAll)) f _ hstep ?_
        intro kp hkp _
        obtain ⟨x, _, rfl⟩ := List.mem_map.mp hkp
        exact ⟨by simp [metaPatchHideAll], by simp [metaPatchHideAll]⟩

/-! ## Cascade-turn lemmas -/

theorem map_fst_pair (w : List String) (patch : PMeta) :
    (w.map fun x => (x, patch)).map Prod.fst = w := by
  rw [List.map_map]
  exact List.map_id w

theorem cascadeTurn_metaInv (keys : List String) (fuel : Nat) (sn : Store α × List Notif)
    (root g : String) (h : metaInv sn.1 g) :
    metaInv (cascadeTurn keys fuel sn root).1 g := by
  unfold cascadeTurn
  cases hm : sn.1.metaMap root with
  | none => exact h
  | some m =>
      dsimp only
      by_cases hv : m.visible = false
      · rw [if_pos hv]
        exact smicFold_pair_metaInv _ g sn (mapped_patch_pair _ _ (Or.inl rfl)) h
      · have hv2 : m.visible = true := by
          cases hb : m.visible
          · exact absurd hb hv
          · rfl
        rw [if_neg hv, if_pos hv2]
        exact smicFold_pair_metaInv _ g sn (mapped_patch_pair _ _ (Or.inr rfl)) h

theorem cascadeTurn_keep_some (keys : List String) (fuel : Nat) (sn : Store α × List Notif)
    (root k : String) (h : sn.1.metaMap k ≠ none) :
    (cascadeTurn keys fuel sn root).1.metaMap k ≠ none := by
  unfold cascadeTurn
  cases hm : sn.1.metaMap root with
  | none => exact h
  | some m =>
      dsimp only
      by_cases hv : m.visible = false
      · rw [if_pos hv]
        exact smicFold_keep_some _ k sn h
      · have hv2 : m.visible = true := by
          cases hb : m.visible
          · exact absurd hb hv
          · rfl
        rw [if_neg hv, if_pos hv2]
        exact smicFold_keep_some _ k sn h

theorem cascadeTurn_untouched (keys : List String) (fuel : Nat) (sn : Store α × List Notif)
    (root f : String) (hf : f ∉ walkList keys fuel root) :
    (cascadeTurn keys fuel sn root).1.metaMap f = sn.1.metaMap f := by
  unfold cascadeTurn
  cases hm : sn.1.metaMap root with
  | none => rfl
  | some m =>
      dsimp only
      have hf2 : ∀ patch : PMeta, f ∉ ((walkList keys fuel root).map fun x => (x, patch)).map Prod.fst := by
        intro patch
        rw [map_fst_pair]
        exact hf
      by_cases hv : m.visible = false
      · rw [if_pos hv]
        exact smicFold_metaMap_other _ f sn (hf2 _)
      · have hv2 : m.visible = true := by
          cases hb : m.visible
          · exact absurd hb hv
          · rfl
        rw [if_neg hv, if_pos hv2]
        exact smicFold_metaMap_other _ f sn (hf2 _)

theorem cascadeTurn_establishes (keys : List String) (fuel : Nat) (sn : Store α × List Notif)
    (root f : String) (hsome : sn.1.metaMap root ≠ none)
    (hf : f ∈ walkList keys fuel root) :
    metaInv (cascadeTurn keys fuel sn root).1 f := by
  unfold cascadeTurn
  cases hm : sn.1.metaMap root with
  | none => exact absurd hm hsome
  | some m =>
      dsimp only
      have hfm : ∀ patch : PMeta, f ∈ ((walkList keys fuel root).map fun x => (x, patch)).map Prod.fst := by
        intro patch
        rw [map_fst_pair]
        exact hf
      by_cases hv : m.visible = false
      · rw [if_pos hv]
        exact smicFold_pair_establishes _ f sn (mapped_patch_pair _ _ (Or.inl rfl)) (hfm _)
      · have hv2 : m.visible = true := by
          cases hb : m.visible
          · exact absurd hb hv
          · rfl
        rw [if_neg hv, if_pos hv2]
        exact smicFold_pair_establishes _ f sn (mapped_patch_pair _ _ (Or.inr rfl)) (hfm _)

theorem cascadeFold_preserves (keys : List String) (fuel : Nat) (l : List String) (f : String) :
    ∀ sn : Store α × List Notif, metaInv sn.1 f →
      metaInv (l.foldl (cascadeTurn keys fuel) sn).1 f := by
  induction l with
  | nil => exact fun sn h => h
  | cons r l ih =>
      intro sn h
      exact ih (cascadeTurn keys fuel sn r) (cascadeTurn_metaInv keys fuel sn r f h)

theorem cascadeFold_metaInv (keys : List String) (fuel : Nat) (l : List String) (f : String) :
    ∀ sn : Store α × List Notif,
      (∀ r ∈ l, sn.1.metaMap r ≠ none) →
      (∃ r ∈ l, f ∈ walkList keys fuel r) →
      metaInv (l.foldl (cascadeTurn keys fuel) sn).1 f := by
  induction l with
  | nil =>
      intro sn _ hf
      obtain ⟨r, hr, _⟩ := hf
      cases hr
  | cons r l ih =>
      intro sn hsome hf
      rw [List.foldl_cons]
      by_cases hfr : f ∈ walkList keys fuel r
      · have h1 : metaInv (cascadeTurn keys fuel sn r).1 f :=
          cascadeTurn_establishes keys fuel sn r f (hsome r (List.mem_cons_self _ _)) hfr
        exact cascadeFold_preserves keys fuel l f _ h1
      · obtain ⟨r2, hr2, hfw⟩ := hf
        have hr2l : r2 ∈ l := by
          rcases List.mem_cons.mp hr2 with h | h
          · subst h
            exact absurd hfw hfr
          · exact h
        exact ih (cascadeTurn keys fuel sn r)
          (fun x hx => cascadeTurn_keep_some keys fuel sn r x
            (hsome x (List.mem_cons_of_mem _ hx)))
          ⟨r2, hr2l, hfw⟩

theorem valueStep_metaMap [DecidableEq α] (d : Rec (Option α)) :
    ∀ sn : Store α × List Notif, (valueStep d sn).1.metaMap = sn.1.metaMap := by
  induction d with
  | nil => exact fun sn => rfl
  | cons kv d ih =>
      intro sn
      unfold valueStep
      rw [List.foldl_cons]
      by_cases hc : readView sn.1.values kv.1 ≠ kv.2
      · rw [if_pos hc]
        have := ih ((setValue sn.1 kv.1 kv.2).1, sn.2 ++ (setValue sn.1 kv.1 kv.2).2)
        unfold valueStep at this
        rw [this, setValue_metaMap]
      · rw [if_neg hc]
        have := ih sn
        unfold valueStep at this
        rw [this]

/-- The root of a walked subtree is always visited first. -/
theorem walkList_head (keys : List String) (fuel : Nat) (root : String) :
    root ∈ walkList keys fuel root := by
  cases fuel with
  | zero => exact List.mem_singleton.mpr rfl
  | succ n => exact List.mem_cons_self _ _

/-! ## Claim C7 -/

/-- C7: after one complete pass, every field the pass's cascade covers
(every cascade root — which includes every baseline-reset field and every
field of the evaluator's meta patch — and every field its walked subtree
visits) satisfies the invariant that stored `visible = false` implies stored
`validate = false`: the engine never leaves a field it hid marked
validatable.  (A field the pass set hidden mid-way but re-shows later ends
`visible = true, validate = true`, which also satisfies the invariant.) -/
theorem pass_invisible_not_validatable {α : Type} [DecidableEq α]
    (rules : List (ConditionRule α)) (s0 : Store α) (f : String)
    (hf : ∃ r ∈ cascadeRootsOf (showControlledOf rules)
        (recKeys (evaluateConditions (readView s0.values) rules).meta),
      f ∈ walkList (recKeys s0.values) ((recKeys s0.values).length + 1) r) :
    metaInv (run rules s0).1 f := by
  intro m hm hv
  rw [run] at hm
  rw [valueStep_metaMap] at hm
  have hsome : ∀ r ∈ cascadeRootsOf (showControlledOf rules)
      (recKeys (evaluateConditions (readView s0.values) rules).meta),
      (smicFold (evaluateConditions (readView s0.values) rules).meta
        (smicFold ((showControlledOf rules).map fun x => (x, metaPatchHideAll))
          (s0, []))).1.metaMap r ≠ none := by
    intro r hr
    rcases (cascadeRootsOf_mem _ _ r).mp hr with h | h
    · refine smicFold_keep_some _ r _ ?_
      refine smicFold_some_of_mem _ r _ ?_
      rw [map_fst_pair]
      exact h
    · exact smicFold_some_of_mem _ r _ h
  exact cascadeFold_metaInv (recKeys s0.values) ((recKeys s0.values).length + 1) _ f _
    hsome hf m hm hv

/-- Concrete store for the C7 witness. -/
def c7Store : Store Int where
  values := [("f", some 1)]
  errors := fun _ => .nullv
  metaMap := fun k => if k = "f" then some ⟨true, true, true⟩ else none
  pending := fun _ => false
  lastValidated := fun _ => none
  validators := fun _ => []

/-- C7 witness: a pass whose single rule hides `f` leaves `f` satisfying the
invariant (its hypothesis — `f` is covered by a cascade root's walk — is
discharged by computation). -/
theorem pass_invisible_not_validatable_witness :
    metaInv (run [⟨fun _ => true, [Effect.hideE "f"], none⟩] c7Store).1 "f" :=
  pass_invisible_not_validatable [⟨fun _ => true, [Effect.hideE "f"], none⟩] c7Store "f"
    ⟨"f", by decide, by decide⟩

/-! ## Evaluator meta-patch lemmas -/

/-- The evaluator's meta patch is well-behaved with respect to field `f`: no
entry for `f` pins `visible` to true, and no entry at all carries a
`validate` property (`applyEffect` never writes one). -/
def evalMetaOK (f : String) (meta : Rec PMeta) : Prop :=
  ∀ kp ∈ meta, (kp.1 = f → kp.2.visible ≠ some true) ∧ kp.2.validate = none

theorem recFind?_mem (r : Rec β) (k : String) (v : β) (h : recFind? r k = some v) :
    (k, v) ∈ r := by
  induction r with
  | nil => cases h
  | cons kv rest ih =>
      by_cases hk : kv.1 = k
      · rw [recFind?, if_pos hk] at h
        obtain rfl := Option.some.inj h
        rw [← hk]
        exact List.mem_cons_self _ _
      · rw [recFind?, if_neg hk] at h
        exact List.mem_cons_of_mem _ (ih h)

theorem recUpdate_mem (r : Rec β) (k : String) (fn : Option β → β) :
    ∀ kp ∈ recUpdate r k fn, kp ∈ r ∨ kp = (k, fn (recFind? r k)) := by
  induction r with
  | nil =>
      intro kp hkp
      right
      simpa [recUpdate, recFind?] using hkp
  | cons kv rest ih =>
      intro kp hkp
      by_cases hk : kv.1 = k
      · rw [recUpdate] at hkp
        rw [if_pos hk] at hkp
        rcases List.mem_cons.mp hkp with h | h
        · right
          rw [h, recFind?, if_pos hk, hk]
        · exact Or.inl (List.mem_cons_of_mem _ h)
      · rw [recUpdate] at hkp
        rw [if_neg hk] at hkp
        rcases List.mem_cons.mp hkp with h | h
        · rw [h]
          exact Or.inl (List.mem_cons_self _ _)
        · rcases ih kp h with h2 | h2
          · exact Or.inl (List.mem_cons_of_mem _ h2)
          · right
            rw [h2, recFind?, if_neg hk]

theorem evalMetaOK_validate_find (f : String) (meta : Rec PMeta) (h : evalMetaOK f meta)
    (g : String) : ((recFind? meta g).getD PMeta.empty).validate = none := by
  cases hg : recFind? meta g with
  | none => rfl
  | some p => exact (h (g, p) (recFind?_mem meta g p hg)).2

theorem applyEffect_metaOK (values : Values α) (st : EvalOut α) (f : String) (e : Effect α)
    (hQ : evalMetaOK f st.meta) (he : e ≠ Effect.showE f) :
    evalMetaOK f (applyEffect values st e).meta := by
  cases e with
  | setE g v => exact hQ
  | clearE g => exact hQ
  | showE g =>
      have hg : g ≠ f := fun h => he (by rw [h])
      intro kp hkp
      rcases recUpdate_mem st.meta g _ kp hkp with h | h
      · exact hQ kp h
      · rw [h]
        refine ⟨fun hk => absurd hk hg, ?_⟩
        exact evalMetaOK_validate_find f st.meta hQ g
  | hideE g =>
      intro kp hkp
      rcases recUpdate_mem st.meta g _ kp hkp with h | h
      · exact hQ kp h
      · rw [h]
        refine ⟨fun _ => by simp, ?_⟩
        exact evalMetaOK_validate_find f st.meta hQ g
  | enableE g =>
      intro kp hkp
      rcases recUpdate_mem st.meta g _ kp hkp with h | h
      · exact hQ kp h
      · rw [h]
        constructor
        · intro hk
          have hgf : g = f := hk
          cases hfind : recFind? st.meta g with
          | none => simp [PMeta.empty]
          | some p =>
              have := (hQ (g, p) (recFind?_mem st.meta g p hfind)).1 hgf
              simpa using this
        · exact evalMetaOK_validate_find f st.meta hQ g
  | disableE g =>
      intro kp hkp
      rcases recUpdate_mem st.meta g _ kp hkp with h | h
      · exact hQ kp h
      · rw [h]
        constructor
        · intro hk
          have hgf : g = f := hk
          cases hfind : recFind? st.meta g with
          | none => simp [PMeta.empty]
          | some p =>
              have := (hQ (g, p) (recFind?_mem st.meta g p hfind)).1 hgf
              simpa using this
        · exact evalMetaOK_validate_find f st.meta hQ g

theorem effectsFold_metaOK (values : Values α) (f : String) (l : List (Effect α)) :
    ∀ st : EvalOut α, evalMetaOK f st.meta → Effect.showE f ∉ l →
      evalMetaOK f (l.foldl (applyEffect values) st).meta := by
  induction l with
  | nil => exact fun st h _ => h
  | cons e l ih =>
      intro st h hnl
      refine ih (applyEffect values st e) ?_ (fun hc => hnl (List.mem_cons_of_mem _ hc))
      exact applyEffect_metaOK values st f e h
        (fun hc => hnl (by rw [hc]; exact List.mem_cons_self _ _))

theorem insertRule_mem (r x : ConditionRule α) (l : List (ConditionRule α)) :
    x ∈ insertRule r l ↔ x = r ∨ x ∈ l := by
  induction l with
  | nil => simp [insertRule]
  | cons y l ih =>
      rw [insertRule]
      split
      · rw [List.mem_cons, ih, List.mem_cons]
        tauto
      · rw [List.mem_cons, List.mem_cons]

theorem sortRules_mem (rules : List (ConditionRule α)) (x : ConditionRule α) :
    x ∈ sortRules rules ↔ x ∈ rules := by
  induction rules with
  | nil => simp [sortRules]
  | cons r l ih =>
      rw [sortRules, List.foldr_cons]
      rw [sortRules] at ih
      rw [insertRule_mem, ih, List.mem_cons]

theorem rulesFold_metaOK (values : Values α) (f : String) (l : List (ConditionRule α)) :
    ∀ st : EvalOut α, evalMetaOK f st.meta →
      (∀ rule ∈ l, rule.when values = true → Effect.showE f ∉ rule.effects) →
      evalMetaOK f (l.foldl (fun st rule =>
        if rule.when values then rule.effects.foldl (applyEffect values) st else st) st).meta := by
  induction l with
  | nil => exact fun st h _ => h
  | cons r l ih =>
      intro st h hl
      rw [List.foldl_cons]
      by_cases hw : r.when values = true
      · rw [if_pos hw]
        exact ih _ (effectsFold_metaOK values f r.effects st h
            (hl r (List.mem_cons_self _ _) hw))
          (fun x hx => hl x (List.mem_cons_of_mem _ hx))
      · rw [if_neg hw]
        exact ih st h (fun x hx => hl x (List.mem_cons_of_mem _ hx))

theorem evaluateConditions_metaOK (values : Values α) (rules : List (ConditionRule α))
    (f : String)
    (h : ∀ rule ∈ rules, rule.when values = true → Effect.showE f ∉ rule.effects) :
    evalMetaOK f (evaluateConditions values rules).meta := by
  unfold evaluateConditions
  exact rulesFold_metaOK values f (sortRules rules) ⟨[], []⟩
    (fun kp hkp => absurd hkp (List.not_mem_nil kp))
    (fun rule hr => h rule ((sortRules_mem rules rule).mp hr))

/-! ## Show-controlled field membership -/

theorem showFoldInner_mem (l : List (Effect α)) (x : String) :
    ∀ acc : List String,
      x ∈ l.foldl
        (fun acc2 e =>
          match e with
          | .showE f => addUniq acc2 f
          | _ => acc2)
        acc
      ↔ x ∈ acc ∨ Effect.showE x ∈ l := by
  induction l with
  | nil => intro acc; simp
  | cons e l ih =>
      intro acc
      rw [List.foldl_cons]
      cases e <;> dsimp only <;> rw [ih] <;> simp [addUniq_mem] <;> tauto

theorem showControlledOf_mem (rules : List (ConditionRule α)) (x : String) :
    x ∈ showControlledOf rules ↔ ∃ rule ∈ rules, Effect.showE x ∈ rule.effects := by
  unfold showControlledOf
  suffices h : ∀ acc : List String,
      x ∈ rules.foldl
        (fun acc rule =>
          rule.effects.foldl
            (fun acc2 e =>
              match e with
              | .showE f => addUniq acc2 f
              | _ => acc2)
            acc)
        acc
      ↔ x ∈ acc ∨ ∃ rule ∈ rules, Effect.showE x ∈ rule.effects by
    simpa using h []
  induction rules with
  | nil => intro acc; simp
  | cons r l ih =>
      intro acc
      rw [List.foldl_cons, ih, showFoldInner_mem]
      simp only [List.mem_cons]
      constructor
      · rintro ((h | h) | ⟨rule, hr, he⟩)
        · exact Or.inl h
        · exact Or.inr ⟨r, Or.inl rfl, h⟩
        · exact Or.inr ⟨rule, Or.inr hr, he⟩
      · rintro (h | ⟨rule, hr | hr, he⟩)
        · exact Or.inl (Or.inl h)
        · subst hr
          exact Or.inl (Or.inr he)
        · exact Or.inr ⟨rule, hr, he⟩

/-! ## Cascade preserves a hidden field that no other root's walk visits -/

theorem cascadeFold_hidden (keys : List String) (fuel : Nat) (l : List String) (f : String) :
    ∀ sn : Store α × List Notif, metaHidden sn.1 f →
      (∀ r ∈ l, r ≠ f → f ∉ walkList keys fuel r) →
      metaHidden (l.foldl (cascadeTurn keys fuel) sn).1 f := by
  induction l with
  | nil => exact fun sn h _ => h
  | cons r l ih =>
      intro sn hh hl
      rw [List.foldl_cons]
      refine ih _ ?_ (fun x hx hxf => hl x (List.mem_cons_of_mem _ hx) hxf)
      by_cases hrf : r = f
      · subst hrf
        obtain ⟨m, hm, hv, hval⟩ := hh
        unfold cascadeTurn
        rw [hm]
        dsimp only
        rw [if_pos hv]
        exact smicFold_hide_establishes _ r sn (walkList_head keys fuel r)
      · obtain ⟨m, hm, hv, hval⟩ := hh
        refine ⟨m, ?_, hv, hval⟩
        rw [cascadeTurn_untouched keys fuel sn r f (hl r (List.mem_cons_self _ _) hrf)]
        exact hm

theorem metaHidden_valueStep [DecidableEq α] (d : Rec (Option α)) (sn : Store α × List Notif)
    (f : String) (h : metaHidden sn.1 f) : metaHidden (valueStep d sn).1 f := by
  obtain ⟨m, hm, hv, hval⟩ := h
  exact ⟨m, by rw [valueStep_metaMap]; exact hm, hv, hval⟩

/-! ## Claim C3 -/

/-- Concrete store for the C3 counterexample: registered fields `a` and
`a.b`, both with default meta. -/
def c3Store : Store Int where
  values := [("a", some 1), ("a.b", some 2)]
  errors := fun _ => .nullv
  metaMap := fun k => if k = "a" ∨ k = "a.b" then some ⟨true, true, true⟩ else none
  pending := fun _ => false
  lastValidated := fun _ => none
  validators := fun _ => []

/-- Rule set for the C3 counterexample: a true rule showing `a` and a false
rule showing `a.b` (so `a.b` is show-controlled but re-shown by no true
rule). -/
def c3Rules : List (ConditionRule Int) :=
  [⟨fun _ => true, [Effect.showE "a"], none⟩,
   ⟨fun _ => false, [Effect.showE "a.b"], none⟩]

/-- C3 counterexample: `a.b` is the target of a `show` effect and no
currently-true rule re-shows it, so by the claim it had to end the pass with
`visible = false, validate = false`; instead it ends with all-true meta,
because the cascade of the visible root `a` walks its subtree and re-shows
`a.b` after the baseline reset hid it. -/
theorem baseline_reset_reshow_counterexample :
    (run c3Rules c3Store).1.metaMap "a.b" = some ⟨true, true, true⟩ ∧
    ¬ metaHidden (run c3Rules c3Store).1 "a.b" := by
  have h : (run c3Rules c3Store).1.metaMap "a.b" = some ⟨true, true, true⟩ := rfl
  refine ⟨h, ?_⟩
  rintro ⟨m, hm, hv, -⟩
  rw [h] at hm
  obtain rfl := Option.some.inj hm
  exact Bool.noConfusion hv

/-- C3 amended: a field that is the target of some `show` effect, is re-shown
by no currently-true rule, AND is visited by no other cascade root's subtree
walk (the counterexample shows a visible ancestor root's walk re-shows it
otherwise) ends the pass with `visible = false` and `validate = false`; and
the baseline reset leaves every field that is not a `show` target entirely
untouched. -/
theorem baseline_reset_amended {α : Type} [DecidableEq α] (rules : List (ConditionRule α))
    (s0 : Store α) (f : String)
    (hshow : ∃ rule ∈ rules, Effect.showE f ∈ rule.effects)
    (hnotrue : ∀ rule ∈ rules, rule.when (readView s0.values) = true →
      Effect.showE f ∉ rule.effects)
    (hnovisit : ∀ r ∈ cascadeRootsOf (showControlledOf rules)
        (recKeys (evaluateConditions (readView s0.values) rules).meta),
      r ≠ f → f ∉ walkList (recKeys s0.values) ((recKeys s0.values).length + 1) r) :
    metaHidden (run rules s0).1 f ∧
    ∀ g, g ∉ showControlledOf rules →
      (smicFold ((showControlledOf rules).map fun x => (x, metaPatchHideAll))
        ((s0, []) : Store α × List Notif)).1.metaMap g = s0.metaMap g := by
  constructor
  · have hfsc : f ∈ showControlledOf rules := (showControlledOf_mem rules f).mpr hshow
    show metaHidden (valueStep (evaluateConditions (readView s0.values) rules).desiredValues
      ((cascadeRootsOf (showControlledOf rules)
          (recKeys (evaluateConditions (readView s0.values) rules).meta)).foldl
        (cascadeTurn (recKeys s0.values) ((recKeys s0.values).length + 1))
        (smicFold (evaluateConditions (readView s0.values) rules).meta
          (smicFold ((showControlledOf rules).map fun x => (x, metaPatchHideAll))
            (s0, []))))).1 f
    refine metaHidden_valueStep _ _ f ?_
    refine cascadeFold_hidden _ _ _ f _ ?_ hnovisit
    refine smicFold_keepHidden _ f _ ?_ ?_
    · exact smicFold_hide_establishes (showControlledOf rules) f (s0, []) hfsc
    · intro kp hkp hk
      obtain ⟨h1, h2⟩ :=
        evaluateConditions_metaOK (readView s0.values) rules f hnotrue kp hkp
      refine ⟨h1 hk, ?_⟩
      rw [h2]
      exact fun hc => Option.noConfusion hc
  · intro g hg
    refine smicFold_metaMap_other _ g (s0, []) ?_
    rw [map_fst_pair]
    exact hg

/-- Concrete store for the C3 witness: one registered field `a`. -/
def c3WStore : Store Int where
  values := [("a", some 1)]
  errors := fun _ => .nullv
  metaMap := fun k => if k = "a" then some ⟨true, true, true⟩ else none
  pending := fun _ => false
  lastValidated := fun _ => none
  validators := fun _ => []

/-- C3 amended witness: a single never-true rule showing `a` leaves `a`
hidden and non-validatable after the pass (all three hypotheses discharged at
this concrete configuration). -/
theorem baseline_reset_amended_witness :
    metaHidden (run [⟨fun _ => false, [Effect.showE "a"], none⟩] c3WStore).1 "a" ∧
    ∀ g, g ∉ showControlledOf [(⟨fun _ => false, [Effect.showE "a"], none⟩ : ConditionRule Int)] →
      (smicFold ((showControlledOf
            [(⟨fun _ => false, [Effect.showE "a"], none⟩ : ConditionRule Int)]).map
          fun x => (x, metaPatchHideAll))
        ((c3WStore, []) : Store Int × List Notif)).1.metaMap g = c3WStore.metaMap g :=
  baseline_reset_amended [⟨fun _ => false, [Effect.showE "a"], none⟩] c3WStore "a"
    ⟨⟨fun _ => false, [Effect.showE "a"], none⟩, List.mem_singleton.mpr rfl,
      List.mem_singleton.mpr rfl⟩
    (by
      intro rule hr hw
      obtain rfl := List.mem_singleton.mp hr
      exact absurd hw (by decide))
    (by
      intro r hr hne
      exact absurd (List.mem_singleton.mp hr) hne)

/-! ## Registered parent-child chains and the subtree walk -/

/-- A chain of registered fields descending from `root`: each element is a
registered key whose `parentPath` is the previous element (the walk can only
discover a descendant through such a chain of registered intermediates). -/
def chainFrom (keys : List String) : String → List String → Prop
  | _, [] => True
  | root, d :: rest => d ∈ keys ∧ parentPath d = root ∧ root ≠ "" ∧ chainFrom keys d rest

theorem chainFrom_subset (keys : List String) :
    ∀ (ch : List String) (root : String), chainFrom keys root ch → ∀ x ∈ ch, x ∈ keys := by
  intro ch
  induction ch with
  | nil => intro root _ x hx; cases hx
  | cons d rest ih =>
      intro root hchain x hx
      obtain ⟨hd, _, _, hrest⟩ := hchain
      rcases List.mem_cons.mp hx with rfl | hx2
      · exact hd
      · exact ih d hrest x hx2

theorem childrenMap_step_mono (m : Rec (List String)) (p field c d : String)
    (h : d ∈ (recFind? m c).getD []) :
    d ∈ (recFind? (recUpdate m p fun old => old.getD [] ++ [field]) c).getD [] := by
  by_cases hpc : p = c
  · subst hpc
    rw [recFind?_update_self]
    simp only [Option.getD_some]
    exact List.mem_append.mpr (Or.inl h)
  · rw [recFind?_update_other m p c _ (fun hc => hpc hc.symm)]
    exact h

theorem childrenMapOf_mem_aux (c d : String) (hp : parentPath d = c) (hc : c ≠ "") :
    ∀ (keysL : List String) (m : Rec (List String)),
      (d ∈ keysL ∨ d ∈ (recFind? m c).getD []) →
      d ∈ (recFind? (keysL.foldl
        (fun m field =>
          let p := parentPath field
          if p = "" then m else recUpdate m p fun old => old.getD [] ++ [field]) m) c).getD [] := by
  intro keysL
  induction keysL with
  | nil =>
      intro m h
      rcases h with h | h
      · cases h
      · exact h
  | cons field rest ih =>
      intro m h
      rw [List.foldl_cons]
      by_cases hfp : parentPath field = ""
      · simp only [hfp, if_pos]
        refine ih m ?_
        rcases h with h | h
        · rcases List.mem_cons.mp h with rfl | h2
          · rw [hp] at hfp
            exact absurd hfp hc
          · exact Or.inl h2
        · exact Or.inr h
      · simp only [hfp, if_neg, if_false]
        rcases h with h | h
        · rcases List.mem_cons.mp h with rfl | h2
          · refine ih _ (Or.inr ?_)
            rw [hp, recFind?_update_self]
            simp only [Option.getD_some]
            exact List.mem_append.mpr (Or.inr (List.mem_singleton.mpr rfl))
          · exact ih _ (Or.inl h2)
        · exact ih _ (Or.inr (childrenMap_step_mono m _ field c d h))

theorem childrenOf_mem (keys : List String) (c d : String)
    (hd : d ∈ keys) (hp : parentPath d = c) (hc : c ≠ "") : d ∈ childrenOf keys c := by
  unfold childrenOf childrenMapOf
  exact childrenMapOf_mem_aux c d hp hc keys [] (Or.inl hd)

theorem chain_subset_walkList (keys : List String) :
    ∀ (ch : List String) (root : String) (fuel : Nat),
      chainFrom keys root ch → ch.length < fuel →
      ∀ d ∈ ch, d ∈ walkList keys fuel root := by
  intro ch
  induction ch with
  | nil => intro root fuel _ _ d hd; cases hd
  | cons c ch ih =>
      intro root fuel hchain hlen d hd
      obtain ⟨hck, hcp, hr0, hrest⟩ := hchain
      cases fuel with
      | zero => cases hlen
      | succ n =>
          have hc : c ∈ childrenOf keys root := childrenOf_mem keys root c hck hcp hr0
          rw [walkList]
          rcases List.mem_cons.mp hd with rfl | hd2
          · refine List.mem_cons_of_mem _ ?_
            exact List.mem_flatMap.mpr ⟨d, List.mem_reverse.mpr hc, walkList_head keys n d⟩
          · refine List.mem_cons_of_mem _ ?_
            refine List.mem_flatMap.mpr ⟨c, List.mem_reverse.mpr hc, ?_⟩
            exact ih c n hrest (Nat.lt_of_succ_lt_succ (by simpa using hlen)) d hd2

theorem chain_length_le (keys ch : List String) (hnd : ch.Nodup)
    (hsub : ∀ x ∈ ch, x ∈ keys) : ch.length ≤ keys.length :=
  (List.subperm_of_subset hnd hsub).length_le

/-! ## Claim C4 -/

/-- Concrete store for the C4 counterexample: `a` and `a.b.c` registered but
NOT the intermediate `a.b`. -/
def c4Store : Store Int where
  values := [("a", some 1), ("a.b.c", some 2)]
  errors := fun _ => .nullv
  metaMap := fun k => if k = "a" ∨ k = "a.b.c" then some ⟨true, true, true⟩ else none
  pending := fun _ => false
  lastValidated := fun _ => none
  validators := fun _ => []

/-- C4 counterexample: with `a` and `a.b.c` registered (but not `a.b`), a
pass that hides the cascade root `a` leaves the registered dotted descendant
`a.b.c` untouched (all-true meta): the walk discovers descendants only
through the parent→children index, and `a.b.c`'s parent `a.b` is not a child
of `a` because it is not registered.  The claim required every registered
descendant of the hidden root to end `visible = false, validate = false`. -/
theorem cascade_gap_counterexample :
    (run [⟨fun _ => true, [Effect.hideE "a"], none⟩] c4Store).1.metaMap "a.b.c"
      = some ⟨true, true, true⟩ ∧
    ¬ metaHidden (run [⟨fun _ => true, [Effect.hideE "a"], none⟩] c4Store).1 "a.b.c" ∧
    (run [⟨fun _ => true, [Effect.hideE "a"], none⟩] c4Store).1.metaMap "a"
      = some ⟨false, true, false⟩ := by
  have h : (run [⟨fun _ => true, [Effect.hideE "a"], none⟩] c4Store).1.metaMap "a.b.c"
      = some ⟨true, true, true⟩ := rfl
  refine ⟨h, ?_, rfl⟩
  rintro ⟨m, hm, hv, -⟩
  rw [h] at hm
  obtain rfl := Option.some.inj hm
  exact Bool.noConfusion hv

/-- C4 amended: a single pass that hides the cascade root `r` (here induced
by a true `hide r` rule) forces every registered descendant of `r` that is
reachable through a CHAIN of registered parent-child links (each intermediate
dotted prefix registered as well) to `visible = false, validate = false`,
with no additional pass required.  (`ch.Nodup` always holds of a real
parent-chain, whose segment counts strictly increase; it is assumed rather
than re-proved from string arithmetic.) -/
theorem cascade_chain_amended {α : Type} [DecidableEq α] (s0 : Store α)
    (p : Values α → Bool) (r : String) (ch : List String)
    (hp : p (readView s0.values) = true)
    (hch : chainFrom (recKeys s0.values) r ch) (hnd : ch.Nodup) :
    ∀ d ∈ ch, metaHidden (run [⟨p, [Effect.hideE r], none⟩] s0).1 d := by
  intro d hd
  have hlen : ch.length < (recKeys s0.values).length + 1 :=
    Nat.lt_succ_of_le (chain_length_le (recKeys s0.values) ch hnd
      (chainFrom_subset (recKeys s0.values) ch r hch))
  have hwalk : d ∈ walkList (recKeys s0.values) ((recKeys s0.values).length + 1) r :=
    chain_subset_walkList (recKeys s0.values) ch r _ hch hlen d hd
  have heval : evaluateConditions (readView s0.values) [⟨p, [Effect.hideE r], none⟩]
      = ⟨[], [(r, ⟨some false, none, none⟩)]⟩ := by
    show (if p (readView s0.values) = true
        then List.foldl (applyEffect (readView s0.values)) ⟨[], []⟩ [Effect.hideE r]
        else (⟨[], []⟩ : EvalOut α))
      = (⟨[], [(r, ⟨some false, none, none⟩)]⟩ : EvalOut α)
    rw [hp]
    rfl
  show metaHidden (valueStep
      (evaluateConditions (readView s0.values) [⟨p, [Effect.hideE r], none⟩]).desiredValues
      ((cascadeRootsOf (showControlledOf [⟨p, [Effect.hideE r], none⟩])
          (recKeys (evaluateConditions (readView s0.values)
            [⟨p, [Effect.hideE r], none⟩]).meta)).foldl
        (cascadeTurn (recKeys s0.values) ((recKeys s0.values).length + 1))
        (smicFold (evaluateConditions (readView s0.values)
            [⟨p, [Effect.hideE r], none⟩]).meta
          (smicFold ((showControlledOf [⟨p, [Effect.hideE r], none⟩]).map
            fun x => (x, metaPatchHideAll)) (s0, []))))).1 d
  rw [heval]
  refine metaHidden_valueStep _ _ d ?_
  show metaHidden ((cascadeTurn (recKeys s0.values) ((recKeys s0.values).length + 1)
      (smicFold [(r, (⟨some false, none, none⟩ : PMeta))] (s0, [])) r)).1 d
  obtain ⟨m, hm, hv⟩ := smic_visible_forced s0 r ⟨some false, none, none⟩ false rfl
  unfold cascadeTurn
  rw [show (smicFold [(r, (⟨some false, none, none⟩ : PMeta))]
      ((s0, []) : Store α × List Notif)).1.metaMap r = some m from hm]
  dsimp only
  rw [if_pos hv]
  exact smicFold_hide_establishes _ d _ hwalk

/-- Concrete store for the C4 witness: the chain `a`, `a.b`, `a.b.c` fully
registered. -/
def c4WStore : Store Int where
  values := [("a", some 1), ("a.b", some 2), ("a.b.c", some 3)]
  errors := fun _ => .nullv
  metaMap := fun k => if k = "a" ∨ k = "a.b" ∨ k = "a.b.c" then some ⟨true, true, true⟩ else none
  pending := fun _ => false
  lastValidated := fun _ => none
  validators := fun _ => []

/-- C4 amended witness: hiding `a` with `a`, `a.b`, `a.b.c` registered forces
`a.b.c` (the end of the registered chain) hidden and non-validatable in one
pass. -/
theorem cascade_chain_amended_witness :
    metaHidden (run [⟨fun _ => true, [Effect.hideE "a"], none⟩] c4WStore).1 "a.b.c" :=
  cascade_chain_amended c4WStore (fun _ => true) "a" ["a.b", "a.b.c"] rfl
    ⟨by decide, by decide, by decide, by decide, by decide, by decide, trivial⟩
    (by decide) "a.b.c" (by decide)

end NdcSpec
